import Mathlib

/-!
# Verification of the flax nnx graph codec (`src/flax/nnx/graph.py`)

Shallow embedding of the flatten/unflatten graph codec, the structural
fingerprint and the four-phase update-context protocol.

Modelling conventions:
* Python objects live in an explicit heap (`Heap`), a list of `Obj`; a
  reference (`Ref`) is a heap address, so "object identity" is address
  equality, mirroring `id()` / identity-keyed `RefMap = dict` usage.
* The modelled fragment covers registered *graph nodes* (mutable, indexed),
  `Variable` leaves, and static values.  Pytree-container nodes (immutable,
  never indexed, acyclic by construction) are outside the modelled fragment.
* Bulk arrays (`jax.Array` / `np.ndarray`) are modelled by the
  `StaticVal.arrayV` constructor; the flatten engine rejects them exactly
  where `_graph_flatten` does.
* The flatten and fingerprint traversals recurse over a possibly-cyclic
  heap, so they are expressed with explicit fuel (one unit per node
  visit); `Res.outOfFuel` marks fuel exhaustion and is proved unreachable
  for fuel exceeding the heap size (the register-before-recurse
  termination argument).  The unflatten traversal recurses on the
  descriptor, a finite tree, so it needs no fuel — as in the source.
* The leaf channel is modelled as the ordered leaf list (the `deque` of
  `unflatten` / the `with_paths=False` list of `flatten`); a leaf is either a
  raw value (`with_paths=False`), a `VariableState` snapshot
  (`with_paths=True`), or a `Variable` object itself (`return_variables=True`).
* `Variable.to_state` / `VariableState.to_variable` / `from_metadata` /
  `update_from_state` live in `variablelib`, which is not part of the sources
  here.  Modelled from the spec: a Variable is "a mutable cell holding a value
  plus a small mapping of immutable metadata"; its state snapshot carries
  type, value and metadata, and updating from a state replaces value and
  metadata in place.
-/

namespace Flax

/-- Heap address; object identity is address equality. -/
abbrev Ref := Nat

/-- Attribute keys of graph nodes. -/
abbrev GKey := Nat

/-- Non-node, non-Variable attribute values.  `arrayV` models bulk numeric
array data (`jax.Array` / `np.ndarray`), which flatten must reject. -/
inductive StaticVal where
  | intV : Int → StaticVal
  | arrayV : List Int → StaticVal
deriving DecidableEq, Repr

/-- `isinstance(value, (jax.Array, np.ndarray))`. -/
def StaticVal.isArray : StaticVal → Bool
  | .arrayV _ => true
  | .intV _ => false

/-- Contents of a `Variable`: type tag, current value, metadata mapping
(`_var_metadata`, kept as a canonical association list). -/
structure VarData where
  varType : Nat
  value : Int
  metadata : List (Nat × Int)
deriving DecidableEq, Repr

/-- An attribute value held by a live node: a reference to another heap
object (node or Variable) or a static value. -/
inductive Val where
  | ref : Ref → Val
  | static : StaticVal → Val
deriving DecidableEq, Repr

/-- A live heap object: a registered graph node (type tag, named attributes,
opaque metadata) or a `Variable` cell. -/
inductive Obj where
  | node : Nat → List (GKey × Val) → Nat → Obj
  | varObj : VarData → Obj
deriving DecidableEq, Repr

/-- The heap: addresses are list indices; allocation appends. -/
abbrev Heap := List Obj

mutual

/-- Structure descriptor (`GraphDef`): `nodeDef`/`nodeRef`/`variableDef`
mirror the Python dataclasses; `staticDef` wraps a `Static` attribute. -/
inductive GraphDef where
  | nodeDef : Nat → Nat → Option Nat → GDAttrs → Nat → GraphDef
  | nodeRef : Nat → Nat → GraphDef
  | variableDef : Nat → Nat → Option Nat → List (Nat × Int) → GraphDef
  | staticDef : StaticVal → GraphDef

/-- The ordered attribute list of a `NodeDef` (a `(key, descriptor)` list,
kept as a mutual inductive with `GraphDef`). -/
inductive GDAttrs where
  | nil : GDAttrs
  | cons : GKey → GraphDef → GDAttrs → GDAttrs

end

/-- Convert a descriptor attribute list to an ordinary list. -/
def GDAttrs.toList : GDAttrs → List (GKey × GraphDef)
  | .nil => []
  | .cons k g rest => (k, g) :: rest.toList

/-- Build a descriptor attribute list from an ordinary list. -/
def GDAttrs.ofList : List (GKey × GraphDef) → GDAttrs
  | [] => .nil
  | (k, g) :: rest => .cons k g (GDAttrs.ofList rest)

/-- Number of attributes. -/
def GDAttrs.length : GDAttrs → Nat
  | .nil => 0
  | .cons _ _ rest => rest.length + 1

/-- Leaves travelling beside the descriptor: `varRef` is the Variable object
itself (`return_variables=True`), `rawVal` its bare value
(`with_paths=False`), `varState` its `VariableState` snapshot. -/
inductive Leaf where
  | varRef : Ref → Leaf
  | rawVal : Int → Leaf
  | varState : Nat → Int → List (Nat × Int) → Leaf
deriving DecidableEq, Repr

/-- Errors raised by the codec (`ValueError` / `RuntimeError` sites). -/
inductive GErr where
  | unsupportedType
  | arrayLeafAt : List GKey → GErr
  | arrayLeaf : GErr
  | notEnoughLeaves
  | extraLeaves : Nat → GErr
  | indexUsed : Nat → GErr
  | refNotFound : Nat → GErr
  | nodeTypeMismatch : Nat → GErr
  | expectedVariableFor : GKey → GErr
  | mergeWithoutRefIndex
  | mergeExpectedNodeDef
deriving DecidableEq, Repr

/-- Result of a traversal: success, a raised error, or fuel exhaustion
(used only by the fuel-instrumented recursions). -/
inductive Res (α : Type) where
  | ok : α → Res α
  | fail : GErr → Res α
  | outOfFuel : Res α
deriving DecidableEq, Repr

/-- Whether a result is a raised error. -/
def Res.isFail {α : Type} : Res α → Bool
  | .fail _ => true
  | _ => false

/-- Association-list lookup keyed by decidable equality; models Python
`dict` lookup for the identity-keyed maps (insertion by append keeps dict
iteration order and `len`). -/
def alookup {α β : Type} [DecidableEq α] : List (α × β) → α → Option β
  | [], _ => none
  | (a, b) :: rest, a' => if a = a' then some b else alookup rest a'

/-- `{index: obj for obj, index in m.items()}` — inversion of a reference
map with distinct values. -/
def invertMap {α β : Type} (m : List (α × β)) : List (β × α) :=
  m.map (fun p => (p.2, p.1))

/-- Identity-keyed reference map (`RefMap = dict`): object address → index. -/
abbrev RefMap := List (Ref × Nat)

/-- Index → object map (`index_ref` / `outer_index_outer_ref`). -/
abbrev IndexMap := List (Nat × Ref)

/-- Lookup in an optional map: `m.get(key, None) if m else None` (an absent
or empty map yields `None`, matching Python truthiness). -/
def optLookup {α β : Type} [DecidableEq α] (m : Option (List (α × β))) (a : α) : Option β :=
  match m with
  | some l => alookup l a
  | none => none

/-- `outer_index_outer_ref is not None and outer_index in outer_index_outer_ref`:
the reuse-cache lookup of `_graph_unflatten`. -/
def cacheLookup (outerCache : Option IndexMap) (outerIdx : Option Nat) : Option Ref :=
  match outerCache, outerIdx with
  | some oc, some oi => alookup oc oi
  | _, _ => none

/-- The leaf emitted for a first-visit Variable: the Variable itself when
`return_variables`, its raw value when `with_paths=False` (`path = none`),
its `VariableState` snapshot otherwise. -/
def mkLeaf (returnVariables : Bool) (path : Option (List GKey)) (c : Ref) (vd : VarData) : Leaf :=
  if returnVariables then .varRef c
  else
    match path with
    | none => .rawVal vd.value
    | some _ => .varState vd.varType vd.value vd.metadata

/-- Attribute loop of `_graph_flatten`, parameterized by the recursive call
`rec` for sub-nodes (the fuel-decremented traversal): one descriptor
attribute per child, recursing into sub-nodes, indexing unseen Variables
(emitting a leaf), and rejecting bulk arrays as statics. -/
def flattenAttrsGo (heap : Heap)
    (rec : Ref → Option (List GKey) → RefMap → Option RefMap → List Leaf → Bool →
      Res (GraphDef × RefMap × List Leaf)) :
    List (GKey × Val) → Option (List GKey) → RefMap → Option RefMap → List Leaf → Bool →
    Res (GDAttrs × RefMap × List Leaf)
  | [], _, refIndex, _, leaves, _ => .ok (.nil, refIndex, leaves)
  | (k, v) :: rest, path, refIndex, refOuterIndex, leaves, returnVariables =>
    match v with
    | .ref c =>
      match heap.get? c with
      | some (.node _ _ _) =>
        match rec c (path.map (fun p => p ++ [k])) refIndex refOuterIndex
            leaves returnVariables with
        | .ok (gd, ri1, ls1) =>
          match flattenAttrsGo heap rec rest path ri1 refOuterIndex ls1 returnVariables with
          | .ok (gds, ri2, ls2) => .ok (.cons k gd gds, ri2, ls2)
          | .fail e => .fail e
          | .outOfFuel => .outOfFuel
        | .fail e => .fail e
        | .outOfFuel => .outOfFuel
      | some (.varObj vd) =>
        match alookup refIndex c with
        | some j =>
          match flattenAttrsGo heap rec rest path refIndex refOuterIndex leaves
              returnVariables with
          | .ok (gds, ri2, ls2) => .ok (.cons k (.nodeRef vd.varType j) gds, ri2, ls2)
          | .fail e => .fail e
          | .outOfFuel => .outOfFuel
        | none =>
          match flattenAttrsGo heap rec rest path (refIndex ++ [(c, refIndex.length)])
              refOuterIndex (leaves ++ [mkLeaf returnVariables path c vd]) returnVariables with
          | .ok (gds, ri2, ls2) =>
            .ok (.cons k
              (.variableDef vd.varType refIndex.length (optLookup refOuterIndex c) vd.metadata)
              gds, ri2, ls2)
          | .fail e => .fail e
          | .outOfFuel => .outOfFuel
      | none => .fail .unsupportedType
    | .static s =>
      if s.isArray then
        .fail
          (match path with
           | some p => .arrayLeafAt (p ++ [k])
           | none => .arrayLeaf)
      else
        match flattenAttrsGo heap rec rest path refIndex refOuterIndex leaves
            returnVariables with
        | .ok (gds, ri2, ls2) => .ok (.cons k (.staticDef s) gds, ri2, ls2)
        | .fail e => .fail e
        | .outOfFuel => .outOfFuel

/-- One visit of `_graph_flatten`: back-reference check, then
register-before-recurse (the node is recorded in `refIndex` *before* its
attributes are traversed), then `NodeDef` assembly with the optional
`outer_index` from `ref_outer_index`. -/
def flattenStep (heap : Heap)
    (rec : Ref → Option (List GKey) → RefMap → Option RefMap → List Leaf → Bool →
      Res (GraphDef × RefMap × List Leaf))
    (r : Ref) (path : Option (List GKey)) (refIndex : RefMap)
    (refOuterIndex : Option RefMap) (leaves : List Leaf) (returnVariables : Bool) :
    Res (GraphDef × RefMap × List Leaf) :=
  match heap.get? r with
  | none => .fail .unsupportedType
  | some (.varObj _) => .fail .unsupportedType
  | some (.node ty attrs md) =>
    match alookup refIndex r with
    | some i => .ok (.nodeRef ty i, refIndex, leaves)
    | none =>
      match flattenAttrsGo heap rec attrs path (refIndex ++ [(r, refIndex.length)])
          refOuterIndex leaves returnVariables with
      | .ok (gattrs, refIndex2, leaves2) =>
        .ok (.nodeDef ty refIndex.length (optLookup refOuterIndex r) gattrs md,
          refIndex2, leaves2)
      | .fail e => .fail e
      | .outOfFuel => .outOfFuel

/-- `_graph_flatten`, instrumented with fuel (one unit per node visit). -/
def graphFlatten (heap : Heap) (fuel : Nat) :
    Ref → Option (List GKey) → RefMap → Option RefMap → List Leaf → Bool →
    Res (GraphDef × RefMap × List Leaf) :=
  Nat.rec (motive := fun _ => Ref → Option (List GKey) → RefMap → Option RefMap →
      List Leaf → Bool → Res (GraphDef × RefMap × List Leaf))
    (fun _ _ _ _ _ _ => .outOfFuel)
    (fun _ ih => flattenStep heap ih)
    fuel

/-- `flatten`: top-level entry.  Starts from an optional shared `refIndex`,
an empty leaf list, and path tracking when `withPaths`. -/
def flatten (heap : Heap) (fuel : Nat) (r : Ref) (withPaths : Bool) (returnVariables : Bool)
    (refIndex : Option RefMap) (refOuterIndex : Option RefMap) :
    Res (GraphDef × RefMap × List Leaf) :=
  graphFlatten heap fuel r (if withPaths then some [] else none) (refIndex.getD [])
    refOuterIndex [] returnVariables

/-- Modelled from the spec: `VariableState.to_variable` rebuilds a Variable
cell from its snapshot, and `type.from_metadata(value, md)` builds a cell of
the descriptor's type from a raw value.  Variable objects used as leaves
(`return_variables=True`) are outside the modelled value domain of
unflatten, so they are mapped to a failure. -/
def varFromLeaf (vt : Nat) (vmd : List (Nat × Int)) : Leaf → Option VarData
  | .varState ty v md => some ⟨ty, v, md⟩
  | .rawVal v => some ⟨vt, v, vmd⟩
  | .varRef _ => none

/-- Modelled from the spec: updating an existing Variable in place —
`update_from_state` replaces value and metadata, assigning `raw_value`
replaces only the value. -/
def varUpdate (vd : VarData) : Leaf → Option VarData
  | .varState _ v md => some { vd with value := v, metadata := md }
  | .rawVal v => some { vd with value := v }
  | .varRef _ => none

mutual

/-- `_graph_unflatten`: rebuild a node from a descriptor, registering the
(possibly reused) node in `indexRef` *before* resolving children, reusing
objects from `outerCache` (`outer_index_outer_ref`) when the descriptor
carries a matching `outer_index`; a reused node is cleared in place before
being refilled. -/
def graphUnflatten : GraphDef → Heap → List Leaf → IndexMap → Option IndexMap →
    Res (Heap × List Leaf × IndexMap × Ref)
  | .nodeRef _ i, heap, leaves, indexRef, _ =>
    match alookup indexRef i with
    | some r => .ok (heap, leaves, indexRef, r)
    | none => .fail (.refNotFound i)
  | .variableDef _ _ _ _, _, _, _, _ => .fail .unsupportedType
  | .staticDef _, _, _, _, _ => .fail .unsupportedType
  | .nodeDef ty index outerIdx gattrs md, heap, leaves, indexRef, outerCache =>
    match alookup indexRef index with
    | some _ => .fail (.indexUsed index)
    | none =>
      match cacheLookup outerCache outerIdx with
      | some r0 =>
        match heap.get? r0 with
        | some (.node ty0 _ md0) =>
          if ty0 = ty then
            match unflattenAttrs gattrs (heap.set r0 (.node ty0 [] md0)) leaves
                (indexRef ++ [(index, r0)]) outerCache with
            | .ok (heap2, leaves2, indexRef2, children) =>
              match heap2.get? r0 with
              | some (.node tyf _ mdf) =>
                .ok (heap2.set r0 (.node tyf children mdf), leaves2, indexRef2, r0)
              | _ => .fail .unsupportedType
            | .fail e => .fail e
            | .outOfFuel => .outOfFuel
          else .fail (.nodeTypeMismatch index)
        | _ => .fail (.nodeTypeMismatch index)
      | none =>
        let r0 := heap.length
        match unflattenAttrs gattrs (heap ++ [.node ty [] md]) leaves
            (indexRef ++ [(index, r0)]) outerCache with
        | .ok (heap2, leaves2, indexRef2, children) =>
          match heap2.get? r0 with
          | some (.node tyf _ mdf) =>
            .ok (heap2.set r0 (.node tyf children mdf), leaves2, indexRef2, r0)
          | _ => .fail .unsupportedType
        | .fail e => .fail e
        | .outOfFuel => .outOfFuel

/-- `_get_children` of `_graph_unflatten`: statics pass through, `NodeRef`s
resolve through `indexRef`, nested `NodeDef`s recurse, and a `VariableDef`
pops the next leaf — updating the outer Variable in place when `outerCache`
has its `outer_index`, otherwise constructing a fresh Variable. -/
def unflattenAttrs : GDAttrs → Heap → List Leaf → IndexMap → Option IndexMap →
    Res (Heap × List Leaf × IndexMap × List (GKey × Val))
  | .nil, heap, leaves, indexRef, _ => .ok (heap, leaves, indexRef, [])
  | .cons k gd rest, heap, leaves, indexRef, outerCache =>
    match gd with
    | .staticDef s =>
      match unflattenAttrs rest heap leaves indexRef outerCache with
      | .ok (heap2, leaves2, indexRef2, children) =>
        .ok (heap2, leaves2, indexRef2, (k, .static s) :: children)
      | .fail e => .fail e
      | .outOfFuel => .outOfFuel
    | .nodeRef _ j =>
      match alookup indexRef j with
      | some rc =>
        match unflattenAttrs rest heap leaves indexRef outerCache with
        | .ok (heap2, leaves2, indexRef2, children) =>
          .ok (heap2, leaves2, indexRef2, (k, .ref rc) :: children)
        | .fail e => .fail e
        | .outOfFuel => .outOfFuel
      | none => .fail (.refNotFound j)
    | .nodeDef ty index outerIdx gattrs md =>
      match graphUnflatten (.nodeDef ty index outerIdx gattrs md) heap leaves indexRef
          outerCache with
      | .ok (heap1, leaves1, indexRef1, rc) =>
        match unflattenAttrs rest heap1 leaves1 indexRef1 outerCache with
        | .ok (heap2, leaves2, indexRef2, children) =>
          .ok (heap2, leaves2, indexRef2, (k, .ref rc) :: children)
        | .fail e => .fail e
        | .outOfFuel => .outOfFuel
      | .fail e => .fail e
      | .outOfFuel => .outOfFuel
    | .variableDef vt vi voi vmd =>
      match leaves with
      | [] => .fail .notEnoughLeaves
      | leaf :: restLeaves =>
        match cacheLookup outerCache voi with
        | some vr =>
          match heap.get? vr with
          | some (.varObj vd0) =>
            match varUpdate vd0 leaf with
            | some vd1 =>
              match unflattenAttrs rest (heap.set vr (.varObj vd1)) restLeaves
                  (indexRef ++ [(vi, vr)]) outerCache with
              | .ok (heap2, leaves2, indexRef2, children) =>
                .ok (heap2, leaves2, indexRef2, (k, .ref vr) :: children)
              | .fail e => .fail e
              | .outOfFuel => .outOfFuel
            | none => .fail .unsupportedType
          | _ => .fail (.expectedVariableFor k)
        | none =>
          match varFromLeaf vt vmd leaf with
          | some vd1 =>
            let vr := heap.length
            match unflattenAttrs rest (heap ++ [.varObj vd1]) restLeaves
                (indexRef ++ [(vi, vr)]) outerCache with
            | .ok (heap2, leaves2, indexRef2, children) =>
              .ok (heap2, leaves2, indexRef2, (k, .ref vr) :: children)
            | .fail e => .fail e
            | .outOfFuel => .outOfFuel
          | none => .fail .unsupportedType

end

/-- `unflatten`: top-level entry.  Resolves a bare `NodeRef` through
`indexRef`, otherwise rebuilds from the `NodeDef`; a non-empty leftover
leaf queue is the "incorrect number of leaves" error. -/
def unflatten (gd : GraphDef) (leaves : List Leaf) (heap : Heap)
    (indexRef : IndexMap) (outerCache : Option IndexMap) :
    Res (Heap × IndexMap × Ref) :=
  match gd with
  | .nodeRef _ i =>
    match alookup indexRef i with
    | some r =>
      if leaves.isEmpty then .ok (heap, indexRef, r)
      else .fail (.extraLeaves leaves.length)
    | none => .fail (.refNotFound i)
  | .nodeDef ty index outerIdx gattrs md =>
    match graphUnflatten (.nodeDef ty index outerIdx gattrs md) heap leaves indexRef
        outerCache with
    | .ok (heap1, leaves1, indexRef1, r) =>
      if leaves1.isEmpty then .ok (heap1, indexRef1, r)
      else .fail (.extraLeaves leaves1.length)
    | .fail e => .fail e
    | .outOfFuel => .outOfFuel
  | _ => .fail .unsupportedType

/-- Structural fingerprint value: nested tuples of the source become an
inductive — `refF` is the `(id, type, index)` back-reference triple, `nodeF`
the `(id, type, index, attributes, metadata)` tuple, `varF` the
first-visit Variable entry with metadata items, `staticF` a static value. -/
inductive FP where
  | refF : Nat → Nat → Nat → FP
  | nodeF : Nat → Nat → Nat → List (GKey × FP) → Nat → FP
  | varF : Nat → Nat → Nat → List (Nat × Int) → FP
  | staticF : StaticVal → FP
deriving Repr

/-- Attribute loop of `_graph_fingerprint`, parameterized by the recursive
call for sub-nodes. -/
def fingerprintAttrsGo (heap : Heap)
    (rec : Ref → RefMap → RefMap → Nat → Res (FP × RefMap × Nat)) :
    List (GKey × Val) → RefMap → RefMap → Nat → Res (List (GKey × FP) × RefMap × Nat)
  | [], _, newRefIndex, nextIndex => .ok ([], newRefIndex, nextIndex)
  | (k, v) :: rest, refIndex, newRefIndex, nextIndex =>
    match v with
    | .ref c =>
      match heap.get? c with
      | some (.node _ _ _) =>
        match rec c refIndex newRefIndex nextIndex with
        | .ok (fp, nri1, ni1) =>
          match fingerprintAttrsGo heap rec rest refIndex nri1 ni1 with
          | .ok (fps, nri2, ni2) => .ok ((k, fp) :: fps, nri2, ni2)
          | .fail e => .fail e
          | .outOfFuel => .outOfFuel
        | .fail e => .fail e
        | .outOfFuel => .outOfFuel
      | some (.varObj vd) =>
        match alookup refIndex c with
        | some j =>
          match fingerprintAttrsGo heap rec rest refIndex newRefIndex nextIndex with
          | .ok (fps, nri2, ni2) => .ok ((k, .refF c vd.varType j) :: fps, nri2, ni2)
          | .fail e => .fail e
          | .outOfFuel => .outOfFuel
        | none =>
          match alookup newRefIndex c with
          | some j =>
            match fingerprintAttrsGo heap rec rest refIndex newRefIndex nextIndex with
            | .ok (fps, nri2, ni2) => .ok ((k, .refF c vd.varType j) :: fps, nri2, ni2)
            | .fail e => .fail e
            | .outOfFuel => .outOfFuel
          | none =>
            let variableIndex := nextIndex
            let nri1 := newRefIndex ++ [(c, variableIndex)]
            match fingerprintAttrsGo heap rec rest refIndex nri1 (nextIndex + 1) with
            | .ok (fps, nri2, ni2) =>
              .ok ((k, .varF c vd.varType variableIndex vd.metadata) :: fps, nri2, ni2)
            | .fail e => .fail e
            | .outOfFuel => .outOfFuel
      | none => .fail .unsupportedType
    | .static s =>
      if s.isArray then .fail .arrayLeaf
      else
        match fingerprintAttrsGo heap rec rest refIndex newRefIndex nextIndex with
        | .ok (fps, nri2, ni2) => .ok ((k, .staticF s) :: fps, nri2, ni2)
        | .fail e => .fail e
        | .outOfFuel => .outOfFuel

/-- One visit of `_graph_fingerprint`: same traversal as flatten, reading
node identity, type, index and Variable metadata but never a Variable's
current value. -/
def fingerprintStep (heap : Heap)
    (rec : Ref → RefMap → RefMap → Nat → Res (FP × RefMap × Nat))
    (r : Ref) (refIndex : RefMap) (newRefIndex : RefMap) (nextIndex : Nat) :
    Res (FP × RefMap × Nat) :=
  match heap.get? r with
  | none => .fail .unsupportedType
  | some (.varObj _) => .fail .unsupportedType
  | some (.node ty attrs md) =>
    match alookup refIndex r with
    | some i => .ok (.refF r ty i, newRefIndex, nextIndex)
    | none =>
      match alookup newRefIndex r with
      | some i => .ok (.refF r ty i, newRefIndex, nextIndex)
      | none =>
        let index := nextIndex
        let nri1 := newRefIndex ++ [(r, index)]
        match fingerprintAttrsGo heap rec attrs refIndex nri1 (nextIndex + 1) with
        | .ok (fattrs, nri2, ni2) => .ok (.nodeF r ty index fattrs md, nri2, ni2)
        | .fail e => .fail e
        | .outOfFuel => .outOfFuel

/-- `_graph_fingerprint`, instrumented with fuel (one unit per node visit). -/
def graphFingerprint (heap : Heap) (fuel : Nat) :
    Ref → RefMap → RefMap → Nat → Res (FP × RefMap × Nat) :=
  Nat.rec (motive := fun _ => Ref → RefMap → RefMap → Nat → Res (FP × RefMap × Nat))
    (fun _ _ _ _ => .outOfFuel)
    (fun _ ih => fingerprintStep heap ih)
    fuel

/-- `fingerprint`: top-level entry; `next_index` starts at
`len(ref_index) + len(new_ref_index)`. -/
def fingerprint (heap : Heap) (fuel : Nat) (r : Ref)
    (refIndex : Option RefMap) (newRefIndex : Option RefMap) : Res FP :=
  let ri := refIndex.getD []
  let nri := newRefIndex.getD []
  match graphFingerprint heap fuel r ri nri (ri.length + nri.length) with
  | .ok (fp, _, _) => .ok fp
  | .fail e => .fail e
  | .outOfFuel => .outOfFuel

/-- The four optional correlation maps of an `UpdateContext` (all `None`
when the context is created). -/
structure UpdateContext where
  outer_ref_outer_index : Option RefMap
  outer_index_inner_ref : Option IndexMap
  outer_index_outer_ref : Option IndexMap
  inner_ref_outer_index : Option RefMap
deriving DecidableEq, Repr

/-- `UpdateContext(tag, None, None, None, None)` as built by
`UpdateContextManager.__enter__`. -/
def UpdateContext.fresh : UpdateContext := ⟨none, none, none, none⟩

/-- `UpdateContext.flatten_end`: outer split (1) stores the reference map
and its inverse; inner split (3) clears the inner maps. -/
def UpdateContext.flatten_end (ctx : UpdateContext) (refIndex : RefMap) : UpdateContext :=
  match ctx.outer_ref_outer_index with
  | none =>
    { ctx with
        outer_ref_outer_index := some refIndex
        outer_index_outer_ref := some (invertMap refIndex) }
  | some _ =>
    { ctx with
        outer_index_inner_ref := none
        inner_ref_outer_index := none }

/-- `UpdateContext.unflatten_end`: inner merge (2) stores the index map and
its inverse; with `inner_merge=False` the context is left unchanged. -/
def UpdateContext.unflatten_end (ctx : UpdateContext) (indexRef : IndexMap)
    (innerMerge : Bool) : UpdateContext :=
  if innerMerge then
    { ctx with
        outer_index_inner_ref := some indexRef
        inner_ref_outer_index := some (invertMap indexRef) }
  else ctx

/-- `UpdateContext.split`: flatten with a fresh reference map, threading
`inner_ref_outer_index` as the outer-index tagging map, then `flatten_end`. -/
def UpdateContext.split (ctx : UpdateContext) (heap : Heap) (fuel : Nat) (r : Ref) :
    Res (GraphDef × List Leaf) × UpdateContext :=
  match flatten heap fuel r true false none ctx.inner_ref_outer_index with
  | .ok (gd, refIndex, leaves) => (.ok (gd, leaves), ctx.flatten_end refIndex)
  | .fail e => (.fail e, ctx)
  | .outOfFuel => (.outOfFuel, ctx)

/-- `UpdateContext.merge`: requires a `NodeDef` and a stored outer reference
map; unflattens with `outer_index_outer_ref` as the reuse cache and then
calls `unflatten_end(index_ref, True)`. -/
def UpdateContext.merge (ctx : UpdateContext) (gd : GraphDef) (leaves : List Leaf)
    (heap : Heap) : Res (Heap × Ref) × UpdateContext :=
  match gd with
  | .nodeDef _ _ _ _ _ =>
    match ctx.outer_ref_outer_index with
    | none => (.fail .mergeWithoutRefIndex, ctx)
    | some _ =>
      match unflatten gd leaves heap [] ctx.outer_index_outer_ref with
      | .ok (heap1, indexRef, r) => (.ok (heap1, r), ctx.unflatten_end indexRef true)
      | .fail e => (.fail e, ctx)
      | .outOfFuel => (.outOfFuel, ctx)
  | _ => (.fail .mergeExpectedNodeDef, ctx)

/-- In-place attribute assignment on a live graph node (`set_key` /
`m.attr = value` mutation between inner merge and inner split). -/
def setAttr (heap : Heap) (r : Ref) (k : GKey) (v : Val) : Heap :=
  match heap.get? r with
  | some (.node ty attrs md) =>
    if (alookup attrs k).isSome then
      heap.set r (.node ty (attrs.map (fun p => if p.1 = k then (k, v) else p)) md)
    else
      heap.set r (.node ty (attrs ++ [(k, v)]) md)
  | _ => heap

/-- Whether an error message carries the offending path. -/
def GErr.namesPath : GErr → Bool
  | .arrayLeafAt _ => true
  | _ => false

mutual

/-- Whether a descriptor contains a bulk array smuggled in as a static. -/
def hasArrayStatic : GraphDef → Bool
  | .staticDef s => s.isArray
  | .nodeDef _ _ _ attrs _ => hasArrayStaticList attrs
  | .nodeRef _ _ => false
  | .variableDef _ _ _ _ => false

/-- Attribute-list form of `hasArrayStatic`. -/
def hasArrayStaticList : GDAttrs → Bool
  | .nil => false
  | .cons _ gd rest => hasArrayStatic gd || hasArrayStaticList rest

end

mutual

/-- Leaf demand of a descriptor: number of `VariableDef` placeholders in
pre-order (each pops exactly one leaf during unflatten). -/
def numVarDefs : GraphDef → Nat
  | .nodeDef _ _ _ attrs _ => numVarDefsList attrs
  | .variableDef _ _ _ _ => 1
  | .nodeRef _ _ => 0
  | .staticDef _ => 0

/-- Attribute-list form of `numVarDefs`. -/
def numVarDefsList : GDAttrs → Nat
  | .nil => 0
  | .cons _ gd rest => numVarDefs gd + numVarDefsList rest

end

mutual

/-- Pre-order well-formedness of a descriptor: every `NodeDef`/`VariableDef`
index is the next consecutive index in traversal order (the accumulator
records each defined index's type tag), and every `NodeRef` targets an
earlier index with the recorded type.  Returns the extended type table on
success.  Flatten emits exactly such descriptors. -/
def indicesOK : GraphDef → List Nat → Option (List Nat)
  | .nodeDef ty i _ attrs _, τ =>
    if i = τ.length then indicesOKList attrs (τ ++ [ty]) else none
  | .nodeRef ty j, τ => if τ.get? j = some ty then some τ else none
  | .variableDef vt i _ _, τ => if i = τ.length then some (τ ++ [vt]) else none
  | .staticDef _, τ => some τ

/-- Attribute-list form of `indicesOK`. -/
def indicesOKList : GDAttrs → List Nat → Option (List Nat)
  | .nil, τ => some τ
  | .cons _ gd rest, τ =>
    match indicesOK gd τ with
    | some τ1 => indicesOKList rest τ1
    | none => none

end

/-- Whether a descriptor is a `NodeDef` or `NodeRef` (the only shapes
`_graph_unflatten` itself is called on). -/
def isNodeKind : GraphDef → Bool
  | .nodeDef _ _ _ _ _ => true
  | .nodeRef _ _ => true
  | .variableDef _ _ _ _ => false
  | .staticDef _ => false

/-- Whether a leaf is not a raw `Variable` object (`return_variables=True`
leaves, which unflatten does not consume). -/
def Leaf.notVarObj : Leaf → Bool
  | .varRef _ => false
  | .rawVal _ => true
  | .varState _ _ _ => true

/-- The index→object map covers exactly the indices below `n`
(the invariant threaded through a well-formed unflatten traversal). -/
def CoversBelow (ir : IndexMap) (n : Nat) : Prop :=
  ∀ j, (alookup ir j).isSome ↔ j < n

/-- Well-formedness of an identity reference map: keys are valid heap
addresses and are distinct (a Python `dict` keyed by object identity). -/
def RefMapOK (heap : Heap) (m : RefMap) : Prop :=
  (∀ p ∈ m, p.1 < heap.length) ∧ (m.map Prod.fst).Nodup

instance (heap : Heap) (m : RefMap) : Decidable (RefMapOK heap m) := by
  unfold RefMapOK
  infer_instance

/-!
## The update-context scenario of §8

Object `m` (address 0) has a self-cycle at key 0 and a Variable child
(address 1) at key 1.  The four protocol calls are performed in order,
with the boundary-side mutation (new static attribute at key 2, self-cycle
re-assigned) between inner merge and inner split.
-/

/-- The scenario heap: `m` with a self-cycle and one Variable. -/
def c1Heap : Heap :=
  [.node 5 [(0, .ref 0), (1, .ref 1)] 7, .varObj ⟨3, 42, [(9, 9)]⟩]

/-- Call 1: outer split. -/
def c1Step1 : Res (GraphDef × List Leaf) × UpdateContext :=
  UpdateContext.fresh.split c1Heap 16 0

/-- Descriptor transmitted across the boundary. -/
def c1Gd1 : GraphDef :=
  match c1Step1.1 with
  | .ok (gd, _) => gd
  | _ => .staticDef (.intV 0)

/-- Leaves transmitted across the boundary. -/
def c1Ls1 : List Leaf :=
  match c1Step1.1 with
  | .ok (_, ls) => ls
  | _ => []

/-- Call 2: inner merge (reconstruction inside the boundary). -/
def c1Step2 : Res (Heap × Ref) × UpdateContext :=
  c1Step1.2.merge c1Gd1 c1Ls1 c1Heap

/-- The inner copy `m2` the boundary code mutates. -/
def c1InnerRef : Ref :=
  match c1Step2.1 with
  | .ok (_, r) => r
  | _ => 0

/-- Heap after the boundary mutation: `m2.a = 1` (new static attribute at
key 2) and `m2.ref = m2` (self-cycle recreated at key 0). -/
def c1MutHeap : Heap :=
  match c1Step2.1 with
  | .ok (hp, r2) => setAttr (setAttr hp r2 2 (.static (.intV 1))) r2 0 (.ref r2)
  | _ => []

/-- Call 3: inner split of the mutated inner graph. -/
def c1Step3 : Res (GraphDef × List Leaf) × UpdateContext :=
  c1Step2.2.split c1MutHeap 16 c1InnerRef

/-- Descriptor sent back out (tagged with outer indices). -/
def c1Gd2 : GraphDef :=
  match c1Step3.1 with
  | .ok (gd, _) => gd
  | _ => .staticDef (.intV 0)

/-- Leaves sent back out. -/
def c1Ls2 : List Leaf :=
  match c1Step3.1 with
  | .ok (_, ls) => ls
  | _ => []

/-- Call 4: outer merge back into the original objects. -/
def c1Step4 : Res (Heap × Ref) × UpdateContext :=
  c1Step3.2.merge c1Gd2 c1Ls2 c1MutHeap

/-- Heap for the array-as-static scenario: a node with a bulk array stored
as a plain attribute. -/
def c10Heap : Heap := [.node 5 [(4, .static (.arrayV [1, 2]))] 7]

/-!
## Well-formedness of flatten output and the unflatten decode
-/

/-- Type tag of a heap object (node type tag or Variable type tag). -/
def Obj.tyOf : Obj → Nat
  | .node ty _ _ => ty
  | .varObj vd => vd.varType

/-- Type tag of the object at a heap address (0 for a dangling address). -/
def tyAt (heap : Heap) (r : Ref) : Nat :=
  match heap.get? r with
  | some o => o.tyOf
  | none => 0

/-- The type table recorded by a traversal's reference map: one tag per
registered object, in registration order. -/
def tyList (heap : Heap) (ri : RefMap) : List Nat :=
  ri.map (fun p => tyAt heap p.1)

/-- The reference map assigned indices `0, 1, 2, ...` in registration order
(the `len(ref_index)` allocation discipline of `_graph_flatten`). -/
def IdxCanonical (ri : RefMap) : Prop :=
  ri.map Prod.snd = List.range ri.length

instance (ri : RefMap) : Decidable (IdxCanonical ri) := by
  unfold IdxCanonical
  infer_instance

mutual

/-- Leaves match the descriptor: each `VariableDef` is paired (pre-order)
with a `VariableState` leaf carrying the same type and metadata — the
`with_paths=True` leaf channel emitted by flatten. -/
def leavesMatch : GraphDef → List Leaf → Bool
  | .nodeDef _ _ _ attrs _, ls => leavesMatchList attrs ls
  | .variableDef vt _ _ vmd, ls =>
    match ls with
    | .varState a _ c :: _ => decide (a = vt) && decide (c = vmd)
    | _ => false
  | .nodeRef _ _, _ => true
  | .staticDef _, _ => true

/-- Attribute-list form of `leavesMatch`. -/
def leavesMatchList : GDAttrs → List Leaf → Bool
  | .nil, _ => true
  | .cons _ gd rest, ls =>
    leavesMatch gd ls && leavesMatchList rest (ls.drop (numVarDefs gd))

end

mutual

/-- No descriptor carries an `outer_index` (flatten with
`ref_outer_index=None` tags nothing). -/
def noOuter : GraphDef → Bool
  | .nodeDef _ _ oi attrs _ => oi.isNone && noOuterList attrs
  | .variableDef _ _ oi _ => oi.isNone
  | .nodeRef _ _ => true
  | .staticDef _ => true

/-- Attribute-list form of `noOuter`. -/
def noOuterList : GDAttrs → Bool
  | .nil => true
  | .cons _ gd rest => noOuter gd && noOuterList rest

end

mutual

/-- Fuel needed by a flatten traversal of the descriptor's graph: one unit
per node visit (`NodeDef` body or `NodeRef` back-reference check). -/
def gdFuel : GraphDef → Nat
  | .nodeDef _ _ _ attrs _ => gdFuelList attrs + 1
  | .nodeRef _ _ => 1
  | .variableDef _ _ _ _ => 0
  | .staticDef _ => 0

/-- Attribute-list form of `gdFuel`. -/
def gdFuelList : GDAttrs → Nat
  | .nil => 0
  | .cons _ gd rest => gdFuel gd + gdFuelList rest

end

mutual

/-- Number of index-defining entries (`NodeDef`s and `VariableDef`s) of a
descriptor. -/
def numDefs : GraphDef → Nat
  | .nodeDef _ _ _ attrs _ => numDefsList attrs + 1
  | .variableDef _ _ _ _ => 1
  | .nodeRef _ _ => 0
  | .staticDef _ => 0

/-- Attribute-list form of `numDefs`. -/
def numDefsList : GDAttrs → Nat
  | .nil => 0
  | .cons _ gd rest => numDefs gd + numDefsList rest

end

mutual

/-- How many `NodeDef`/`VariableDef` entries of the descriptor define
index `n`. -/
def defOccs : GraphDef → Nat → Nat
  | .nodeDef _ i _ attrs _, n => (if i = n then 1 else 0) + defOccsList attrs n
  | .variableDef _ i _ _, n => if i = n then 1 else 0
  | .nodeRef _ _, _ => 0
  | .staticDef _, _ => 0

/-- Attribute-list form of `defOccs`. -/
def defOccsList : GDAttrs → Nat → Nat
  | .nil, _ => 0
  | .cons _ gd rest, n => defOccs gd n + defOccsList rest n

end

mutual

/-- How many `NodeRef` entries of the descriptor reference index `n`. -/
def refOccs : GraphDef → Nat → Nat
  | .nodeDef _ _ _ attrs _, n => refOccsList attrs n
  | .nodeRef _ j, n => if j = n then 1 else 0
  | .variableDef _ _ _ _, _ => 0
  | .staticDef _, _ => 0

/-- Attribute-list form of `refOccs`. -/
def refOccsList : GDAttrs → Nat → Nat
  | .nil, _ => 0
  | .cons _ gd rest, n => refOccs gd n + refOccsList rest n

end

/-- Index → address map after unflattening a canonical descriptor into a
heap of base address `B`: index `i` lives at address `B + i`. -/
def canonIr (B n : Nat) : IndexMap :=
  (List.range n).map (fun j => (j, B + j))

/-- Address → index map of a re-flatten traversal of such a heap. -/
def canonRi (B n : Nat) : RefMap :=
  (List.range n).map (fun j => (B + j, j))

/-- The attribute value rebuilt for a child descriptor when unflattening a
canonical descriptor at base address `B`. -/
def decodeVal (B : Nat) : GraphDef → Val
  | .staticDef s => .static s
  | .nodeRef _ j => .ref (B + j)
  | .nodeDef _ i _ _ _ => .ref (B + i)
  | .variableDef _ i _ _ => .ref (B + i)

/-- The rebuilt attribute list of a node. -/
def decodeVals : GDAttrs → Nat → List (GKey × Val)
  | .nil, _ => []
  | .cons k gd rest, B => (k, decodeVal B gd) :: decodeVals rest B

mutual

/-- The objects allocated (in pre-order) by unflattening a canonical
descriptor at base address `B`, together with the remaining leaves. -/
def decodeObjs : GraphDef → Nat → List Leaf → List Obj × List Leaf
  | .nodeDef ty _ _ attrs md, B, ls =>
    let rest := decodeObjsList attrs B ls
    (.node ty (decodeVals attrs B) md :: rest.1, rest.2)
  | .variableDef vt _ _ vmd, _, ls =>
    match ls with
    | leaf :: rest =>
      match varFromLeaf vt vmd leaf with
      | some vd => ([.varObj vd], rest)
      | none => ([], rest)
    | [] => ([], [])
  | .nodeRef _ _, _, ls => ([], ls)
  | .staticDef _, _, ls => ([], ls)

/-- Attribute-list form of `decodeObjs`. -/
def decodeObjsList : GDAttrs → Nat → List Leaf → List Obj × List Leaf
  | .nil, _, ls => ([], ls)
  | .cons _ gd rest, B, ls =>
    let first := decodeObjs gd B ls
    let more := decodeObjsList rest B first.2
    (first.1 ++ more.1, more.2)

end

/-- The index of the object returned by unflattening a descriptor. -/
def rootIdx : GraphDef → Nat
  | .nodeDef _ i _ _ _ => i
  | .nodeRef _ j => j
  | .variableDef _ i _ _ => i
  | .staticDef _ => 0

/-- Heap view forgetting Variable values — the data the structural
fingerprint never reads. -/
def Obj.fpView : Obj → Obj
  | .node ty attrs md => .node ty attrs md
  | .varObj vd => .varObj { vd with value := 0 }

/-- Well-formedness contract of one `_graph_flatten` node visit (run with
path tracking, no shared maps, `return_variables=False`): a successful
visit starting from a canonically indexed reference map emits a descriptor
whose indices extend the type table consecutively, extends the reference
map canonically, appends exactly one matching leaf per `VariableDef`,
tags no `outer_index`, and smuggles no array as a static. -/
def RecWF (heap : Heap)
    (rec : Ref → Option (List GKey) → RefMap → Option RefMap → List Leaf → Bool →
      Res (GraphDef × RefMap × List Leaf)) : Prop :=
  ∀ c p ri acc gd ri2 ls2,
    rec c (some p) ri none acc false = .ok (gd, ri2, ls2) →
    IdxCanonical ri →
    indicesOK gd (tyList heap ri) = some (tyList heap ri2) ∧
    IdxCanonical ri2 ∧ (∃ δ, ri2 = ri ++ δ) ∧
    (∃ em, ls2 = acc ++ em ∧ em.length = numVarDefs gd ∧ leavesMatch gd em = true) ∧
    noOuter gd = true ∧ hasArrayStatic gd = false ∧ isNodeKind gd = true

/-!
## Theorems

### Unfolding equations and association-list lemmas
-/

theorem graphFlatten_zero (heap : Heap) (r : Ref) (path : Option (List GKey))
    (ri : RefMap) (roi : Option RefMap) (ls : List Leaf) (rv : Bool) :
    graphFlatten heap 0 r path ri roi ls rv = .outOfFuel := rfl

theorem graphFlatten_succ (heap : Heap) (fuel : Nat) :
    graphFlatten heap (fuel + 1) = flattenStep heap (graphFlatten heap fuel) := rfl

theorem graphFingerprint_zero (heap : Heap) (r : Ref) (ri nri : RefMap) (ni : Nat) :
    graphFingerprint heap 0 r ri nri ni = .outOfFuel := rfl

theorem graphFingerprint_succ (heap : Heap) (fuel : Nat) :
    graphFingerprint heap (fuel + 1) = fingerprintStep heap (graphFingerprint heap fuel) := rfl

theorem alookup_append_left {α β : Type} [DecidableEq α] {l1 : List (α × β)}
    (l2 : List (α × β)) {a : α} {b : β} (h : alookup l1 a = some b) :
    alookup (l1 ++ l2) a = some b := by
  induction l1 with
  | nil => simp [alookup] at h
  | cons hd tl ih =>
    obtain ⟨x, y⟩ := hd
    by_cases hx : x = a
    · subst hx
      simp [alookup] at h ⊢
      exact h
    · simp [alookup, hx] at h ⊢
      exact ih h

theorem alookup_append_right {α β : Type} [DecidableEq α] {l1 : List (α × β)}
    (l2 : List (α × β)) {a : α} (h : alookup l1 a = none) :
    alookup (l1 ++ l2) a = alookup l2 a := by
  induction l1 with
  | nil => simp [alookup]
  | cons hd tl ih =>
    obtain ⟨x, y⟩ := hd
    by_cases hx : x = a
    · subst hx; simp [alookup] at h
    · simp [alookup, hx] at h ⊢
      exact ih h

theorem alookup_eq_none {α β : Type} [DecidableEq α] {l : List (α × β)} {a : α} :
    alookup l a = none ↔ a ∉ l.map Prod.fst := by
  induction l with
  | nil => simp [alookup]
  | cons hd tl ih =>
    obtain ⟨x, y⟩ := hd
    by_cases hx : x = a
    · subst hx; simp [alookup]
    · simp [alookup, hx, ih, Ne.symm hx]

theorem alookup_mem {α β : Type} [DecidableEq α] {l : List (α × β)} {a : α} {b : β}
    (h : alookup l a = some b) : (a, b) ∈ l := by
  induction l with
  | nil => simp [alookup] at h
  | cons hd tl ih =>
    obtain ⟨x, y⟩ := hd
    by_cases hx : x = a
    · subst hx
      simp [alookup] at h
      subst h
      exact List.mem_cons_self _ _
    · simp [alookup, hx] at h
      exact List.mem_cons_of_mem _ (ih h)

theorem alookup_isSome {α β : Type} [DecidableEq α] {l : List (α × β)} {a : α} :
    (alookup l a).isSome ↔ a ∈ l.map Prod.fst := by
  rcases h : alookup l a with _ | b
  · simpa [h] using alookup_eq_none.mp h
  · simp only [Option.isSome_some, true_iff]
    have := alookup_mem h
    exact List.mem_map.mpr ⟨(a, b), this, rfl⟩

/-!
### Array-as-static rejection (C10)
-/

theorem flattenAttrsGo_no_array (heap : Heap)
    (rec : Ref → Option (List GKey) → RefMap → Option RefMap → List Leaf → Bool →
      Res (GraphDef × RefMap × List Leaf))
    (hrec : ∀ c path ri roi ls rv gd ri' ls',
      rec c path ri roi ls rv = .ok (gd, ri', ls') → hasArrayStatic gd = false) :
    ∀ (attrs : List (GKey × Val)) path ri roi ls rv gds ri2 ls2,
      flattenAttrsGo heap rec attrs path ri roi ls rv = .ok (gds, ri2, ls2) →
      hasArrayStaticList gds = false := by
  intro attrs
  induction attrs with
  | nil =>
    intro path ri roi ls rv gds ri2 ls2 h
    injection h with h1
    injection h1 with hgd h2
    subst hgd
    rfl
  | cons hd rest ih =>
    intro path ri roi ls rv gds ri2 ls2 h
    obtain ⟨k, v⟩ := hd
    cases v with
    | static s =>
      simp only [flattenAttrsGo] at h
      rcases hs : s.isArray with _ | _
      · rw [hs] at h
        simp only [Bool.false_eq_true, if_false] at h
        rcases hrest : flattenAttrsGo heap rec rest path ri roi ls rv with r | e | _ <;>
          rw [hrest] at h
        · obtain ⟨gds1, ri1, ls1⟩ := r
          injection h with h1
          injection h1 with hgd h2
          subst hgd
          simp [hasArrayStaticList, hasArrayStatic, hs, ih _ _ _ _ _ _ _ _ hrest]
        · cases h
        · cases h
      · rw [hs] at h
        simp only [if_true] at h
        cases h
    | ref c =>
      simp only [flattenAttrsGo] at h
      split at h
      · -- child is a node
        split at h
        · split at h
          · rename_i gds2 ri2x ls2x heqrest
            rename_i heqr x0
            injection h with h1
            injection h1 with hgd h2
            subst hgd
            simp [hasArrayStaticList, hrec _ _ _ _ _ _ _ _ _ heqr,
              ih _ _ _ _ _ _ _ _ heqrest]
          · cases h
          · cases h
        · cases h
        · cases h
      · -- child is a Variable
        split at h
        · split at h
          · rename_i gds2 ri2x ls2x heqrest
            injection h with h1
            injection h1 with hgd h2
            subst hgd
            simp [hasArrayStaticList, hasArrayStatic, ih _ _ _ _ _ _ _ _ heqrest]
          · cases h
          · cases h
        · split at h
          · rename_i gds2 ri2x ls2x heqrest
            injection h with h1
            injection h1 with hgd h2
            subst hgd
            simp [hasArrayStaticList, hasArrayStatic, ih _ _ _ _ _ _ _ _ heqrest]
          · cases h
          · cases h
      · cases h

theorem graphFlatten_no_array (heap : Heap) :
    ∀ (fuel : Nat) r path ri roi ls rv gd ri2 ls2,
      graphFlatten heap fuel r path ri roi ls rv = .ok (gd, ri2, ls2) →
      hasArrayStatic gd = false := by
  intro fuel
  induction fuel with
  | zero => intro r path ri roi ls rv gd ri2 ls2 h; cases h
  | succ fuel ih =>
    intro r path ri roi ls rv gd ri2 ls2 h
    rw [graphFlatten_succ] at h
    unfold flattenStep at h
    split at h
    · cases h
    · cases h
    · split at h
      · injection h with h1
        injection h1 with hgd h2
        subst hgd
        rfl
      · split at h
        · rename_i gds2 ri2x ls2x heqrest
          injection h with h1
          injection h1 with hgd h2
          subst hgd
          simpa [hasArrayStatic] using
            flattenAttrsGo_no_array heap (graphFlatten heap fuel)
              (fun c path2 ri3 roi3 ls3 rv3 gd3 ri4 ls4 hc =>
                ih c path2 ri3 roi3 ls3 rv3 gd3 ri4 ls4 hc)
              _ _ _ _ _ _ _ _ _ heqrest
        · cases h
        · cases h

theorem flattenAttrsGo_pathful_error (heap : Heap)
    (rec : Ref → Option (List GKey) → RefMap → Option RefMap → List Leaf → Bool →
      Res (GraphDef × RefMap × List Leaf))
    (hrec : ∀ c p ri roi ls rv,
      rec c (some p) ri roi ls rv ≠ .fail .arrayLeaf) :
    ∀ (attrs : List (GKey × Val)) p ri roi ls rv,
      flattenAttrsGo heap rec attrs (some p) ri roi ls rv ≠ .fail .arrayLeaf := by
  intro attrs
  induction attrs with
  | nil => intro p ri roi ls rv h; cases h
  | cons hd rest ih =>
    intro p ri roi ls rv h
    obtain ⟨k, v⟩ := hd
    cases v with
    | static s =>
      simp only [flattenAttrsGo] at h
      split at h
      · injection h with h1
        cases h1
      · split at h
        · cases h
        · rename_i heqrest
          injection h with h1
          subst h1
          exact ih _ _ _ _ _ heqrest
        · cases h
    | ref c =>
      simp only [flattenAttrsGo, Option.map] at h
      split at h
      · -- child is a node
        split at h
        · split at h
          · cases h
          · rename_i heqrest
            injection h with h1
            subst h1
            exact ih _ _ _ _ _ heqrest
          · cases h
        · rename_i heqr
          injection h with h1
          subst h1
          exact hrec _ _ _ _ _ _ heqr
        · cases h
      · -- child is a Variable
        split at h
        · split at h
          · cases h
          · rename_i heqrest
            injection h with h1
            subst h1
            exact ih _ _ _ _ _ heqrest
          · cases h
        · split at h
          · cases h
          · rename_i heqrest
            injection h with h1
            subst h1
            exact ih _ _ _ _ _ heqrest
          · cases h
      · injection h with h1
        cases h1

theorem graphFlatten_pathful_error (heap : Heap) :
    ∀ (fuel : Nat) r p ri roi ls rv,
      graphFlatten heap fuel r (some p) ri roi ls rv ≠ .fail .arrayLeaf := by
  intro fuel
  induction fuel with
  | zero => intro r p ri roi ls rv h; cases h
  | succ fuel ih =>
    intro r p ri roi ls rv h
    rw [graphFlatten_succ] at h
    unfold flattenStep at h
    split at h
    · injection h with h1; cases h1
    · injection h with h1; cases h1
    · split at h
      · cases h
      · split at h
        · cases h
        · rename_i heqrest
          injection h with h1
          subst h1
          exact flattenAttrsGo_pathful_error heap (graphFlatten heap fuel)
            (fun c p2 ri3 roi3 ls3 rv3 hc => ih c p2 ri3 roi3 ls3 rv3 hc)
            _ _ _ _ _ _ heqrest
        · cases h

/-!
### Reference-map extension and fuel sufficiency (C4)
-/

theorem RefMapOK.append {heap : Heap} {ri : RefMap} {c : Ref} (n : Nat)
    (h : RefMapOK heap ri) (hc : c < heap.length) (hnone : alookup ri c = none) :
    RefMapOK heap (ri ++ [(c, n)]) := by
  obtain ⟨hlt, hnd⟩ := h
  constructor
  · intro p hp
    rcases List.mem_append.mp hp with hp | hp
    · exact hlt p hp
    · simp at hp
      subst hp
      exact hc
  · rw [List.map_append, List.nodup_append]
    refine ⟨hnd, by simp, ?_⟩
    intro a ha
    simp only [List.map_cons, List.map_nil, List.mem_singleton]
    intro hb
    subst hb
    exact absurd (alookup_eq_none.mp hnone) (by simp [ha])

theorem RefMapOK.length_le {heap : Heap} {ri : RefMap} (h : RefMapOK heap ri) :
    ri.length ≤ heap.length := by
  obtain ⟨hlt, hnd⟩ := h
  have hsub : ri.map Prod.fst ⊆ List.range heap.length := by
    intro a ha
    rcases List.mem_map.mp ha with ⟨p, hp, rfl⟩
    exact List.mem_range.mpr (hlt p hp)
  calc ri.length = (ri.map Prod.fst).length := (List.length_map _ _).symm
    _ = (ri.map Prod.fst).toFinset.card := (List.toFinset_card_of_nodup hnd).symm
    _ ≤ (List.range heap.length).toFinset.card := by
        apply Finset.card_le_card
        intro a ha
        rw [List.mem_toFinset] at ha ⊢
        exact hsub ha
    _ = heap.length := by rw [List.toFinset_card_of_nodup (List.nodup_range _), List.length_range]


theorem flattenAttrsGo_extends (heap : Heap)
    (rec : Ref → Option (List GKey) → RefMap → Option RefMap → List Leaf → Bool →
      Res (GraphDef × RefMap × List Leaf))
    (hrec : ∀ c path ri roi ls rv gd ri' ls',
      rec c path ri roi ls rv = .ok (gd, ri', ls') →
      (∃ δ, ri' = ri ++ δ) ∧ (RefMapOK heap ri → RefMapOK heap ri')) :
    ∀ (attrs : List (GKey × Val)) path ri roi ls rv gds ri2 ls2,
      flattenAttrsGo heap rec attrs path ri roi ls rv = .ok (gds, ri2, ls2) →
      (∃ δ, ri2 = ri ++ δ) ∧ (RefMapOK heap ri → RefMapOK heap ri2) := by
  intro attrs
  induction attrs with
  | nil =>
    intro path ri roi ls rv gds ri2 ls2 h
    injection h with h1
    injection h1 with hgd h2
    injection h2 with hri hls
    subst hri
    exact ⟨⟨[], by simp⟩, fun hok => hok⟩
  | cons hd rest ih =>
    intro path ri roi ls rv gds ri2 ls2 h
    obtain ⟨k, v⟩ := hd
    cases v with
    | static s =>
      simp only [flattenAttrsGo] at h
      split at h
      · cases h
      · split at h
        · rename_i gds2 ri2x ls2x heqrest
          injection h with h1
          injection h1 with hgd h2
          injection h2 with hri hls
          subst hri
          exact ih _ _ _ _ _ _ _ _ heqrest
        · cases h
        · cases h
    | ref c =>
      simp only [flattenAttrsGo] at h
      split at h
      · -- child is a node
        split at h
        · split at h
          · rename_i gds2 ri2x ls2x heqrest
            rename_i heqr x0
            injection h with h1
            injection h1 with hgd h2
            injection h2 with hri hls
            subst hri
            obtain ⟨⟨d1, hd1⟩, hok1⟩ := hrec _ _ _ _ _ _ _ _ _ heqr
            obtain ⟨⟨d2, hd2⟩, hok2⟩ := ih _ _ _ _ _ _ _ _ heqrest
            subst hd1
            subst hd2
            exact ⟨⟨d1 ++ d2, by simp⟩, fun hok => hok2 (hok1 hok)⟩
          · cases h
          · cases h
        · cases h
        · cases h
      · -- child is a Variable
        split at h
        · split at h
          · rename_i gds2 ri2x ls2x heqrest
            injection h with h1
            injection h1 with hgd h2
            injection h2 with hri hls
            subst hri
            exact ih _ _ _ _ _ _ _ _ heqrest
          · cases h
          · cases h
        · split at h
          · rename_i gds2 ri2x ls2x heqrest
            rename_i xg vd0 heqget xa heqal xr
            injection h with h1
            injection h1 with hgd h2
            injection h2 with hri hls
            subst hri
            obtain ⟨⟨d2, hd2⟩, hok2⟩ := ih _ _ _ _ _ _ _ _ heqrest
            subst hd2
            have hclt : c < heap.length := by
              rcases List.get?_eq_some.mp heqget with ⟨hlt, -⟩
              exact hlt
            refine ⟨⟨(c, ri.length) :: d2, by simp⟩, fun hok => ?_⟩
            exact hok2 (RefMapOK.append ri.length hok hclt heqal)
          · cases h
          · cases h
      · cases h


theorem graphFlatten_extends (heap : Heap) :
    ∀ (fuel : Nat) r path ri roi ls rv gd ri2 ls2,
      graphFlatten heap fuel r path ri roi ls rv = .ok (gd, ri2, ls2) →
      (∃ δ, ri2 = ri ++ δ) ∧ (RefMapOK heap ri → RefMapOK heap ri2) := by
  intro fuel
  induction fuel with
  | zero => intro r path ri roi ls rv gd ri2 ls2 h; cases h
  | succ fuel ih =>
    intro r path ri roi ls rv gd ri2 ls2 h
    rw [graphFlatten_succ] at h
    unfold flattenStep at h
    split at h
    · cases h
    · cases h
    · split at h
      · injection h with h1
        injection h1 with hgd h2
        injection h2 with hri hls
        subst hri
        exact ⟨⟨[], by simp⟩, fun hok => hok⟩
      · split at h
        · rename_i gds2 ri2x ls2x heqrest
          rename_i tyx attrsx mdx heqget xa heqal xres
          injection h with h1
          injection h1 with hgd h2
          injection h2 with hri hls
          subst hri
          obtain ⟨⟨d2, hd2⟩, hok2⟩ :=
            flattenAttrsGo_extends heap (graphFlatten heap fuel)
              (fun c p2 ri3 roi3 ls3 rv3 gd3 ri4 ls4 hc => ih c p2 ri3 roi3 ls3 rv3 gd3 ri4 ls4 hc)
              _ _ _ _ _ _ _ _ _ heqrest
          subst hd2
          have hrlt : r < heap.length := by
            rcases List.get?_eq_some.mp heqget with ⟨hlt, -⟩
            exact hlt
          refine ⟨⟨(r, ri.length) :: d2, by simp⟩, fun hok => ?_⟩
          exact hok2 (RefMapOK.append ri.length hok hrlt heqal)
        · cases h
        · cases h


theorem flattenAttrsGo_fuel (heap : Heap) (fuel : Nat)
    (rec : Ref → Option (List GKey) → RefMap → Option RefMap → List Leaf → Bool →
      Res (GraphDef × RefMap × List Leaf))
    (hrecFuel : ∀ c path ri roi ls rv, RefMapOK heap ri →
      heap.length + 1 ≤ fuel + ri.length → rec c path ri roi ls rv ≠ .outOfFuel)
    (hrecExt : ∀ c path ri roi ls rv gd ri' ls',
      rec c path ri roi ls rv = .ok (gd, ri', ls') →
      (∃ δ, ri' = ri ++ δ) ∧ (RefMapOK heap ri → RefMapOK heap ri')) :
    ∀ (attrs : List (GKey × Val)) path ri roi ls rv, RefMapOK heap ri →
      heap.length + 1 ≤ fuel + ri.length →
      flattenAttrsGo heap rec attrs path ri roi ls rv ≠ .outOfFuel := by
  intro attrs
  induction attrs with
  | nil => intro path ri roi ls rv hok hb h; cases h
  | cons hd rest ih =>
    intro path ri roi ls rv hok hb h
    obtain ⟨k, v⟩ := hd
    cases v with
    | static s =>
      simp only [flattenAttrsGo] at h
      split at h
      · cases h
      · split at h
        · cases h
        · cases h
        · rename_i heqrest
          exact ih _ _ _ _ _ hok hb heqrest
    | ref c =>
      simp only [flattenAttrsGo] at h
      split at h
      · -- child is a node
        split at h
        · split at h
          · cases h
          · cases h
          · rename_i heqrest
            rename_i heqr x0
            obtain ⟨⟨d1, hd1⟩, hok1⟩ := hrecExt _ _ _ _ _ _ _ _ _ heqr
            subst hd1
            refine ih _ _ _ _ _ (hok1 hok) ?_ heqrest
            have : ri.length ≤ ri.length + d1.length := Nat.le_add_right _ _
            simp only [List.length_append]
            omega
        · cases h
        · rename_i heqr
          exact hrecFuel _ _ _ _ _ _ hok hb heqr
      · -- child is a Variable
        split at h
        · split at h
          · cases h
          · cases h
          · rename_i heqrest
            exact ih _ _ _ _ _ hok hb heqrest
        · split at h
          · cases h
          · cases h
          · rename_i heqrest
            rename_i xg vd0 heqget xa heqal xr
            have hclt : c < heap.length := by
              rcases List.get?_eq_some.mp heqget with ⟨hlt, -⟩
              exact hlt
            refine ih _ _ _ _ _ (RefMapOK.append ri.length hok hclt heqal) ?_ heqrest
            simp only [List.length_append, List.length_cons, List.length_nil]
            omega
      · cases h

theorem graphFlatten_fuel (heap : Heap) :
    ∀ (fuel : Nat) r path ri roi ls rv, RefMapOK heap ri →
      heap.length + 1 ≤ fuel + ri.length →
      graphFlatten heap fuel r path ri roi ls rv ≠ .outOfFuel := by
  intro fuel
  induction fuel with
  | zero =>
    intro r path ri roi ls rv hok hb h
    have := RefMapOK.length_le hok
    omega
  | succ fuel ih =>
    intro r path ri roi ls rv hok hb h
    rw [graphFlatten_succ] at h
    unfold flattenStep at h
    split at h
    · cases h
    · cases h
    · split at h
      · cases h
      · split at h
        · cases h
        · cases h
        · rename_i heqrest
          rename_i tyx attrsx mdx heqget xa heqal xr
          have hrlt : r < heap.length := by
            rcases List.get?_eq_some.mp heqget with ⟨hlt, -⟩
            exact hlt
          refine flattenAttrsGo_fuel heap fuel (graphFlatten heap fuel)
            (fun c p2 ri3 roi3 ls3 rv3 hok3 hb3 => ih c p2 ri3 roi3 ls3 rv3 hok3 hb3)
            (fun c p2 ri3 roi3 ls3 rv3 gd3 ri4 ls4 hc =>
              graphFlatten_extends heap fuel c p2 ri3 roi3 ls3 rv3 gd3 ri4 ls4 hc)
            _ _ _ _ _ _ (RefMapOK.append ri.length hok hrlt heqal) ?_ heqrest
          simp only [List.length_append, List.length_cons, List.length_nil]
          omega

/-- C4: register-before-recurse termination.  Flatten cannot run out of
fuel once the fuel exceeds the number of unregistered heap objects — on any
heap, cyclic or not — because every node is recorded in the identity map
before its children are traversed, and the map can never exceed the heap
size.  And unflatten registers the reconstructed node in the index map
before resolving children, so a self-referential node round-trips into a
reconstructed node whose attribute again references the node itself. -/
theorem claimC4_cycle_termination :
    (∀ heap fuel r path ri roi ls rv, RefMapOK heap ri →
        heap.length + 1 ≤ fuel + ri.length →
        graphFlatten heap fuel r path ri roi ls rv ≠ .outOfFuel) ∧
    (∀ ty k md fuel,
        graphFlatten [.node ty [(k, .ref 0)] md] (fuel + 2) 0 (some []) [] none [] false
          = .ok (.nodeDef ty 0 none (.cons k (.nodeRef ty 0) .nil) md, [(0, 0)], []) ∧
        unflatten (.nodeDef ty 0 none (.cons k (.nodeRef ty 0) .nil) md) []
            [.node ty [(k, .ref 0)] md] [] none
          = .ok ([.node ty [(k, .ref 0)] md, .node ty [(k, .ref 1)] md], [(0, 1)], 1)) := by
  constructor
  · exact fun heap fuel => graphFlatten_fuel heap fuel
  · intro ty k md fuel
    constructor
    · rw [graphFlatten_succ]
      simp [flattenStep, flattenAttrsGo, alookup, optLookup, graphFlatten_succ]
    · simp [unflatten, graphUnflatten, unflattenAttrs, alookup, cacheLookup]

/-- C4 witness: concrete cyclic heaps terminate and reconstruct their
self-reference. -/
theorem claimC4_cycle_termination_witness :
    graphFlatten c1Heap 3 0 (some []) [] none [] false ≠ .outOfFuel ∧
    unflatten (.nodeDef 5 0 none (.cons 4 (.nodeRef 5 0) .nil) 7) []
        [.node 5 [(4, .ref 0)] 7] [] none
      = .ok ([.node 5 [(4, .ref 0)] 7, .node 5 [(4, .ref 1)] 7], [(0, 1)], 1) :=
  ⟨claimC4_cycle_termination.1 c1Heap 3 0 (some []) [] none [] false (by decide) (by decide),
   (claimC4_cycle_termination.2 5 4 7 0).2⟩

/-- C1: Update-context round-trip preserves identity.  On the §8 scenario
(object `m` at address 0 with a self-cycle at key 0 and a Variable child),
running outer split → inner merge → boundary mutation (new static attribute
at key 2, self-cycle recreated) → inner split → outer merge returns the very
same object `m` (its original heap address 0, not the distinct inner copy),
with the new attribute visible on `m` and the self-cycle re-established on
`m` (`m`'s key 0 again references `m` itself). -/
theorem claimC1_update_context_roundtrip :
    (∃ heapF, c1Step4.1 = .ok (heapF, 0) ∧
      heapF.get? 0 =
        some (.node 5 [(0, .ref 0), (1, .ref 1), (2, .static (.intV 1))] 7)) ∧
    c1InnerRef ≠ 0 :=
  ⟨⟨_, rfl, rfl⟩, by decide⟩

/-- C8 (amended): merging on an update context before the corresponding
split fails with the usage error `Cannot merge without ref_index`; but a
second split without an intervening merge does *not* fail — it proceeds,
being treated as the inner split (3). -/
theorem claimC8_order_enforcement :
    (∀ (ctx : UpdateContext) ty i oi attrs md (ls : List Leaf) (heap : Heap),
        ctx.outer_ref_outer_index = none →
        (ctx.merge (.nodeDef ty i oi attrs md) ls heap).1 = .fail .mergeWithoutRefIndex) ∧
    (c1Step1.2.split c1Heap 16 0).1 =
      .ok (.nodeDef 5 0 none
            (.cons 0 (.nodeRef 5 0) (.cons 1 (.variableDef 3 1 none [(9, 9)]) .nil)) 7,
        [.varState 3 42 [(9, 9)]]) := by
  constructor
  · intro ctx ty i oi attrs md ls heap h
    simp [UpdateContext.merge, h]
  · rfl

/-- C8 witness: a fresh context refuses to merge. -/
theorem claimC8_order_enforcement_witness :
    (UpdateContext.fresh.merge (.nodeDef 0 0 none .nil 0) [] []).1 =
      .fail .mergeWithoutRefIndex :=
  claimC8_order_enforcement.1 UpdateContext.fresh 0 0 none .nil 0 [] [] rfl

/-- C8 counterexample: calling split a second time without an intervening
merge does not fail — on the §8 scenario the second split succeeds (it is
not an error result), although the outer maps show that the first split of
this context already happened. -/
theorem claimC8_counterexample :
    Res.isFail (c1Step1.2.split c1Heap 16 0).1 = false ∧
    c1Step1.2.outer_ref_outer_index ≠ none :=
  ⟨rfl, by decide⟩

/-- C9: the inner maps *are* cleared after the inner split (3), but the
outer maps are *not* cleared after the outer merge (4) — both are still
populated on the context after call 4, and the inner maps were even
repopulated by `unflatten_end(index_ref, True)`; this contradicts the
`update_context` docstring ("the refmap is cleared after (4)"). -/
theorem claimC9_maps_not_cleared :
    c1Step3.2.outer_index_inner_ref = none ∧
    c1Step3.2.inner_ref_outer_index = none ∧
    c1Step4.2.outer_ref_outer_index = some [(0, 0), (1, 1)] ∧
    c1Step4.2.outer_index_outer_ref = some [(0, 0), (1, 1)] ∧
    c1Step4.2.outer_index_inner_ref = some [(0, 0), (1, 1)] :=
  ⟨rfl, rfl, rfl, rfl, rfl⟩

/-- C10 (amended): whenever flatten encounters a bulk numeric array as a
non-Variable attribute value it fails with an error instead of emitting a
Static value — no descriptor produced by any flatten invocation contains an
array static, and a traversal with path tracking (`with_paths=True`) never
raises the pathless array error; the error names the offending path when
paths are tracked, as shown on the one-array-attribute heap family.  (With
`with_paths=False` the error omits the path; see the counterexample.) -/
theorem claimC10_array_rejection :
    (∀ heap fuel r path ri roi ls rv gd ri2 ls2,
        graphFlatten heap fuel r path ri roi ls rv = .ok (gd, ri2, ls2) →
        hasArrayStatic gd = false) ∧
    (∀ heap fuel r p ri roi ls rv,
        graphFlatten heap fuel r (some p) ri roi ls rv ≠ .fail .arrayLeaf) ∧
    (∀ ty k data md fuel p roi ls rv,
        graphFlatten [.node ty [(k, .static (.arrayV data))] md] (fuel + 1) 0 (some p)
          [] roi ls rv = .fail (.arrayLeafAt (p ++ [k]))) := by
  refine ⟨fun heap fuel => graphFlatten_no_array heap fuel,
    fun heap fuel => graphFlatten_pathful_error heap fuel, ?_⟩
  intro ty k data md fuel p roi ls rv
  rw [graphFlatten_succ]
  simp [flattenStep, flattenAttrsGo, alookup, StaticVal.isArray]

/-- C10 witness: the scenario descriptor contains no array static, and the
concrete array heap errors with the offending path `[4]`. -/
theorem claimC10_array_rejection_witness :
    hasArrayStatic c1Gd1 = false ∧
    graphFlatten c10Heap 2 0 (some []) [] none [] false = .fail (.arrayLeafAt [4]) :=
  ⟨claimC10_array_rejection.1 c1Heap 16 0 (some []) [] none [] false c1Gd1
      [(0, 0), (1, 1)] [.varState 3 42 [(9, 9)]] rfl,
   by simpa using claimC10_array_rejection.2.2 5 4 [1, 2] 7 1 [] none [] false⟩

/-- C10 counterexample: with `with_paths=False` the array-as-static
rejection error does *not* name the offending path — the claim's "this
holds for every flatten invocation regardless of flag settings" fails. -/
theorem claimC10_counterexample :
    flatten c10Heap 3 0 false false none none = .fail .arrayLeaf ∧
    GErr.namesPath .arrayLeaf = false :=
  ⟨rfl, rfl⟩


mutual

theorem graphUnflatten_leaves (gd : GraphDef) :
    ∀ heap ls ir oc heap2 ls2 ir2 r,
      graphUnflatten gd heap ls ir oc = .ok (heap2, ls2, ir2, r) →
      numVarDefs gd ≤ ls.length ∧ ls2 = ls.drop (numVarDefs gd) := by
  cases gd with
  | nodeRef ty j =>
    intro heap ls ir oc heap2 ls2 ir2 r h
    simp only [graphUnflatten] at h
    split at h
    · injection h with h1
      injection h1 with h2 h3
      injection h3 with h4 h5
      subst h4
      simp [numVarDefs]
    · cases h
  | variableDef a b c d =>
    intro heap ls ir oc heap2 ls2 ir2 r h
    simp only [graphUnflatten] at h
    cases h
  | staticDef s =>
    intro heap ls ir oc heap2 ls2 ir2 r h
    simp only [graphUnflatten] at h
    cases h
  | nodeDef ty index oi gattrs md =>
    intro heap ls ir oc heap2 ls2 ir2 r h
    simp only [graphUnflatten] at h
    split at h
    · cases h
    · split at h
      · -- reuse path
        split at h
        · split at h
          · split at h
            · split at h
              · rename_i heqattrs x2 tyf2 a2 mdf2 heqget2
                injection h with h1
                injection h1 with h2 h3
                injection h3 with h4 h5
                subst h4
                simpa [numVarDefs] using unflattenAttrs_leaves gattrs _ _ _ _ _ _ _ _ heqattrs
              · cases h
            · cases h
            · cases h
          · cases h
        · cases h
      · -- create path
        split at h
        · split at h
          · rename_i heqattrs x2 tyf2 a2 mdf2 heqget2
            injection h with h1
            injection h1 with h2 h3
            injection h3 with h4 h5
            subst h4
            simpa [numVarDefs] using unflattenAttrs_leaves gattrs _ _ _ _ _ _ _ _ heqattrs
          · cases h
        · cases h
        · cases h

theorem unflattenAttrs_leaves (attrs : GDAttrs) :
    ∀ heap ls ir oc heap2 ls2 ir2 ch,
      unflattenAttrs attrs heap ls ir oc = .ok (heap2, ls2, ir2, ch) →
      numVarDefsList attrs ≤ ls.length ∧ ls2 = ls.drop (numVarDefsList attrs) := by
  cases attrs with
  | nil =>
    intro heap ls ir oc heap2 ls2 ir2 ch h
    injection h with h1
    injection h1 with h2 h3
    injection h3 with h4 h5
    subst h4
    simp [numVarDefsList]
  | cons k gd rest =>
    intro heap ls ir oc heap2 ls2 ir2 ch h
    cases gd with
    | staticDef s =>
      simp only [unflattenAttrs] at h
      split at h
      · rename_i heqrest
        injection h with h1
        injection h1 with h2 h3
        injection h3 with h4 h5
        subst h4
        simpa [numVarDefsList, numVarDefs] using unflattenAttrs_leaves rest _ _ _ _ _ _ _ _ heqrest
      · cases h
      · cases h
    | nodeRef nty j =>
      simp only [unflattenAttrs] at h
      split at h
      · split at h
        · rename_i heqrest
          injection h with h1
          injection h1 with h2 h3
          injection h3 with h4 h5
          subst h4
          simpa [numVarDefsList, numVarDefs] using unflattenAttrs_leaves rest _ _ _ _ _ _ _ _ heqrest
        · cases h
        · cases h
      · cases h
    | nodeDef nty nindex noi nattrs nmd =>
      simp only [unflattenAttrs] at h
      split at h
      · rename_i heqsub
        split at h
        · rename_i heqrest
          injection h with h1
          injection h1 with h2 h3
          injection h3 with h4 h5
          subst h4
          obtain ⟨ha, hd⟩ := graphUnflatten_leaves (.nodeDef nty nindex noi nattrs nmd) _ _ _ _ _ _ _ _ heqsub
          obtain ⟨hb, hd2⟩ := unflattenAttrs_leaves rest _ _ _ _ _ _ _ _ heqrest
          subst hd
          subst hd2
          constructor
          · have := List.length_drop (numVarDefs (.nodeDef nty nindex noi nattrs nmd)) ls
            simp only [numVarDefsList]
            omega
          · simp only [numVarDefsList, List.drop_drop]
        · cases h
        · cases h
      · cases h
      · cases h
    | variableDef vt vi voi vmd =>
      simp only [unflattenAttrs] at h
      split at h
      · cases h
      · -- leaf :: restLeaves
        split at h
        · -- reuse variable
          split at h
          · split at h
            · split at h
              · rename_i heqrest
                injection h with h1
                injection h1 with h2 h3
                injection h3 with h4 h5
                subst h4
                obtain ⟨hb, hd⟩ := unflattenAttrs_leaves rest _ _ _ _ _ _ _ _ heqrest
                subst hd
                rename_i leaf restLeaves x3 x4 x5 x6 x7 x8
                constructor
                · simp only [numVarDefsList, numVarDefs, List.length_cons]
                  omega
                · simp [numVarDefsList, numVarDefs, Nat.add_comm]
              · cases h
              · cases h
            · cases h
          · cases h
        · -- create variable
          split at h
          · split at h
            · rename_i heqrest
              injection h with h1
              injection h1 with h2 h3
              injection h3 with h4 h5
              subst h4
              obtain ⟨hb, hd⟩ := unflattenAttrs_leaves rest _ _ _ _ _ _ _ _ heqrest
              subst hd
              constructor
              · simp only [numVarDefsList, numVarDefs, List.length_cons]
                omega
              · simp [numVarDefsList, numVarDefs, Nat.add_comm]
            · cases h
            · cases h
          · cases h

end

mutual

theorem graphUnflatten_frame (gd : GraphDef) :
    ∀ heap ls ir heap2 ls2 ir2 r,
      graphUnflatten gd heap ls ir none = .ok (heap2, ls2, ir2, r) →
      heap.length ≤ heap2.length ∧
      (∀ i, i < heap.length → heap2.get? i = heap.get? i) ∧
      (∃ δ, ir2 = ir ++ δ ∧ ∀ q a, (q, a) ∈ δ → heap.length ≤ a ∧ a < heap2.length) := by
  cases gd with
  | nodeRef ty j =>
    intro heap ls ir heap2 ls2 ir2 r h
    simp only [graphUnflatten] at h
    split at h
    · simp only [Res.ok.injEq, Prod.mk.injEq] at h
      obtain ⟨rfl, rfl, rfl, rfl⟩ := h
      exact ⟨le_refl _, fun i _ => rfl, ⟨[], by simp, by simp⟩⟩
    · cases h
  | variableDef a b c d =>
    intro heap ls ir heap2 ls2 ir2 r h
    simp only [graphUnflatten] at h
    cases h
  | staticDef s =>
    intro heap ls ir heap2 ls2 ir2 r h
    simp only [graphUnflatten] at h
    cases h
  | nodeDef ty index oi gattrs md =>
    intro heap ls ir heap2 ls2 ir2 r h
    simp only [graphUnflatten, cacheLookup] at h
    split at h
    · cases h
    · split at h
      · rename_i x1 heap2x leaves2x indexRef2x childrenx heqattrs
        split at h
        · rename_i x2 tyf2 a2 mdf2 heqget2
          simp only [Res.ok.injEq, Prod.mk.injEq] at h
          obtain ⟨rfl, rfl, rfl, rfl⟩ := h
          obtain ⟨hlen, hpres, δ2, hδ2, hb2⟩ :=
            unflattenAttrs_frame gattrs _ _ _ _ _ _ _ heqattrs
          simp only [List.length_append, List.length_cons, List.length_nil] at hlen
          have hset : (heap2x.set heap.length (Obj.node tyf2 childrenx mdf2)).length
              = heap2x.length := List.length_set _ _ _
          refine ⟨by rw [hset]; omega, ?_, ?_⟩
          · intro i hi
            rw [List.get?_set_ne _ _ (by omega)]
            rw [hpres i (by simp only [List.length_append, List.length_cons,
              List.length_nil]; omega), List.get?_append hi]
          · refine ⟨(index, heap.length) :: δ2, by simpa using hδ2, ?_⟩
            intro q a hqa
            rw [hset]
            rcases List.mem_cons.mp hqa with hqa | hqa
            · injection hqa with hq ha
              subst ha
              refine ⟨le_refl _, ?_⟩
              exact lt_of_lt_of_le (Nat.lt_succ_self _) hlen
            · obtain ⟨hc1, hc2⟩ := hb2 q a hqa
              simp only [List.length_append, List.length_cons, List.length_nil] at hc1
              exact ⟨by omega, hc2⟩
        · cases h
      · cases h
      · cases h

theorem unflattenAttrs_frame (attrs : GDAttrs) :
    ∀ heap ls ir heap2 ls2 ir2 ch,
      unflattenAttrs attrs heap ls ir none = .ok (heap2, ls2, ir2, ch) →
      heap.length ≤ heap2.length ∧
      (∀ i, i < heap.length → heap2.get? i = heap.get? i) ∧
      (∃ δ, ir2 = ir ++ δ ∧ ∀ q a, (q, a) ∈ δ → heap.length ≤ a ∧ a < heap2.length) := by
  cases attrs with
  | nil =>
    intro heap ls ir heap2 ls2 ir2 ch h
    simp only [unflattenAttrs, Res.ok.injEq, Prod.mk.injEq] at h
    obtain ⟨rfl, rfl, rfl, rfl⟩ := h
    exact ⟨le_refl _, fun i _ => rfl, ⟨[], by simp, by simp⟩⟩
  | cons k gd rest =>
    intro heap ls ir heap2 ls2 ir2 ch h
    cases gd with
    | staticDef s =>
      simp only [unflattenAttrs] at h
      split at h
      · rename_i heqrest
        simp only [Res.ok.injEq, Prod.mk.injEq] at h
        obtain ⟨rfl, rfl, rfl, rfl⟩ := h
        exact unflattenAttrs_frame rest _ _ _ _ _ _ _ heqrest
      · cases h
      · cases h
    | nodeRef nty j =>
      simp only [unflattenAttrs] at h
      split at h
      · split at h
        · rename_i heqrest
          simp only [Res.ok.injEq, Prod.mk.injEq] at h
          obtain ⟨rfl, rfl, rfl, rfl⟩ := h
          exact unflattenAttrs_frame rest _ _ _ _ _ _ _ heqrest
        · cases h
        · cases h
      · cases h
    | nodeDef nty nindex noi nattrs nmd =>
      simp only [unflattenAttrs] at h
      split at h
      · rename_i x1 heap1x leaves1x indexRef1x rcx heqsub
        split at h
        · rename_i heqrest
          simp only [Res.ok.injEq, Prod.mk.injEq] at h
          obtain ⟨rfl, rfl, rfl, rfl⟩ := h
          obtain ⟨hlen1, hpres1, δ1, hδ1, hb1⟩ :=
            graphUnflatten_frame (.nodeDef nty nindex noi nattrs nmd) _ _ _ _ _ _ _ heqsub
          obtain ⟨hlen2, hpres2, δ2, hδ2, hb2⟩ :=
            unflattenAttrs_frame rest _ _ _ _ _ _ _ heqrest
          subst hδ1
          subst hδ2
          refine ⟨by omega, ?_, ?_⟩
          · intro i hi
            rw [hpres2 i (by omega), hpres1 i hi]
          · refine ⟨δ1 ++ δ2, by simp, ?_⟩
            intro q a hqa
            rcases List.mem_append.mp hqa with hqa | hqa
            · obtain ⟨hc1, hc2⟩ := hb1 q a hqa
              exact ⟨hc1, lt_of_lt_of_le hc2 hlen2⟩
            · obtain ⟨hc1, hc2⟩ := hb2 q a hqa
              exact ⟨le_trans hlen1 hc1, hc2⟩
        · cases h
        · cases h
      · cases h
      · cases h
    | variableDef vt vi voi vmd =>
      simp only [unflattenAttrs, cacheLookup] at h
      split at h
      · cases h
      · split at h
        · rename_i vd1x heqleaf
          split at h
          · rename_i heqrest
            simp only [Res.ok.injEq, Prod.mk.injEq] at h
            obtain ⟨rfl, rfl, rfl, rfl⟩ := h
            obtain ⟨hlen2, hpres2, δ2, hδ2, hb2⟩ :=
              unflattenAttrs_frame rest _ _ _ _ _ _ _ heqrest
            simp only [List.length_append, List.length_cons, List.length_nil] at hlen2
            subst hδ2
            refine ⟨by omega, ?_, ?_⟩
            · intro i hi
              rw [hpres2 i (by simp only [List.length_append, List.length_cons,
                List.length_nil]; omega), List.get?_append hi]
            · refine ⟨(vi, heap.length) :: δ2, by simp, ?_⟩
              intro q a hqa
              rcases List.mem_cons.mp hqa with hqa | hqa
              · injection hqa with hq ha
                subst ha
                exact ⟨le_refl _, lt_of_lt_of_le (Nat.lt_succ_self _) hlen2⟩
              · obtain ⟨hc1, hc2⟩ := hb2 q a hqa
                simp only [List.length_append, List.length_cons, List.length_nil] at hc1
                exact ⟨by omega, hc2⟩
          · cases h
          · cases h
        · cases h

end

theorem CoversBelow.lookup_lt {ir : IndexMap} {n : Nat} (h : CoversBelow ir n)
    {j : Nat} (hj : j < n) : ∃ r, alookup ir j = some r := by
  have := (h j).mpr hj
  rcases hx : alookup ir j with _ | r
  · rw [hx] at this; cases this
  · exact ⟨r, rfl⟩

theorem CoversBelow.lookup_none {ir : IndexMap} {n : Nat} (h : CoversBelow ir n) :
    alookup ir n = none := by
  rcases hx : alookup ir n with _ | r
  · rfl
  · have := (h n).mp (by rw [hx]; rfl)
    omega

theorem CoversBelow.push {ir : IndexMap} {n : Nat} (h : CoversBelow ir n) (r0 : Ref) :
    CoversBelow (ir ++ [(n, r0)]) (n + 1) := by
  intro j
  rcases Nat.lt_trichotomy j n with hj | hj | hj
  · obtain ⟨r, hr⟩ := h.lookup_lt hj
    rw [alookup_append_left _ hr]
    simp
    omega
  · subst hj
    rw [alookup_append_right _ h.lookup_none]
    simp [alookup]
  · have hnone : alookup ir j = none := by
      rcases hx : alookup ir j with _ | r
      · rfl
      · have := (h j).mp (by rw [hx]; rfl)
        omega
    rw [alookup_append_right _ hnone]
    simp [alookup]
    constructor
    · intro heq
      omega
    · intro hlt
      omega


mutual

theorem graphUnflatten_ok (gd : GraphDef) :
    ∀ τ τ2 heap ls ir, indicesOK gd τ = some τ2 → isNodeKind gd = true →
      CoversBelow ir τ.length →
      (∀ l ∈ ls, l.notVarObj = true) →
      numVarDefs gd ≤ ls.length →
      ∃ heap2 ir2 r, graphUnflatten gd heap ls ir none
          = .ok (heap2, ls.drop (numVarDefs gd), ir2, r) ∧ CoversBelow ir2 τ2.length := by
  cases gd with
  | nodeRef ty j =>
    intro τ τ2 heap ls ir hok hkind hcov hls hn
    simp only [indicesOK] at hok
    split at hok
    · rename_i hget
      injection hok with hτ
      subst hτ
      have hj : j < τ.length := by
        rcases hx : τ.get? j with _ | t
        · rw [hx] at hget; cases hget
        · exact List.get?_eq_some.mp hx |>.1
      obtain ⟨r, hr⟩ := hcov.lookup_lt hj
      exact ⟨heap, ir, r, by simp [graphUnflatten, hr, numVarDefs], hcov⟩
    · cases hok
  | variableDef a b c d =>
    intro τ τ2 heap ls ir hok hkind hcov hls hn
    cases hkind
  | staticDef s =>
    intro τ τ2 heap ls ir hok hkind hcov hls hn
    cases hkind
  | nodeDef ty index oi gattrs md =>
    intro τ τ2 heap ls ir hok hkind hcov hls hn
    simp only [indicesOK] at hok
    split at hok
    · rename_i hindex
      subst hindex
      have hnone : alookup ir τ.length = none := hcov.lookup_none
      obtain ⟨heap2, ir2, ch, heqattrs, hcov2⟩ :=
        unflattenAttrs_ok gattrs (τ ++ [ty]) τ2 (heap ++ [.node ty [] md]) ls
          (ir ++ [(τ.length, heap.length)]) hok
          (by simpa using hcov.push heap.length)
          hls (by simpa [numVarDefs] using hn)
      obtain ⟨hlen, hpres, -⟩ := unflattenAttrs_frame gattrs _ _ _ _ _ _ _ heqattrs
      have hget2 : heap2.get? heap.length = some (.node ty [] md) := by
        rw [hpres heap.length (by simp), List.get?_concat_length]
      refine ⟨heap2.set heap.length (.node ty ch md), ir2, heap.length, ?_, hcov2⟩
      simp only [graphUnflatten, cacheLookup, hnone, heqattrs, hget2, numVarDefs]
    · cases hok

theorem unflattenAttrs_ok (attrs : GDAttrs) :
    ∀ τ τ2 heap ls ir, indicesOKList attrs τ = some τ2 →
      CoversBelow ir τ.length →
      (∀ l ∈ ls, l.notVarObj = true) →
      numVarDefsList attrs ≤ ls.length →
      ∃ heap2 ir2 ch, unflattenAttrs attrs heap ls ir none
          = .ok (heap2, ls.drop (numVarDefsList attrs), ir2, ch) ∧
        CoversBelow ir2 τ2.length := by
  cases attrs with
  | nil =>
    intro τ τ2 heap ls ir hok hcov hls hn
    simp only [indicesOKList] at hok
    injection hok with hτ
    subst hτ
    exact ⟨heap, ir, [], by simp [unflattenAttrs, numVarDefsList], hcov⟩
  | cons k gd rest =>
    intro τ τ2 heap ls ir hok hcov hls hn
    simp only [indicesOKList] at hok
    split at hok
    · rename_i τ1 heqgd
      cases gd with
      | staticDef s =>
        simp only [indicesOK] at heqgd
        injection heqgd with hτ
        subst hτ
        obtain ⟨heap2, ir2, ch, heqrest, hcov2⟩ :=
          unflattenAttrs_ok rest τ τ2 heap ls ir hok hcov hls
            (by simpa [numVarDefsList, numVarDefs] using hn)
        refine ⟨heap2, ir2, (k, .static s) :: ch, ?_, hcov2⟩
        simp only [unflattenAttrs, heqrest, numVarDefsList, numVarDefs, Nat.zero_add]
      | nodeRef nty j =>
        simp only [indicesOK] at heqgd
        split at heqgd
        · rename_i hget
          injection heqgd with hτ
          subst hτ
          have hj : j < τ.length := by
            rcases hx : τ.get? j with _ | t
            · rw [hx] at hget; cases hget
            · exact List.get?_eq_some.mp hx |>.1
          obtain ⟨rc, hrc⟩ := hcov.lookup_lt hj
          obtain ⟨heap2, ir2, ch, heqrest, hcov2⟩ :=
            unflattenAttrs_ok rest τ τ2 heap ls ir hok hcov hls
              (by simpa [numVarDefsList, numVarDefs] using hn)
          refine ⟨heap2, ir2, (k, .ref rc) :: ch, ?_, hcov2⟩
          simp only [unflattenAttrs, hrc, heqrest, numVarDefsList, numVarDefs, Nat.zero_add]
        · cases heqgd
      | nodeDef nty nindex noi nattrs nmd =>
        have hn1 : numVarDefs (.nodeDef nty nindex noi nattrs nmd) ≤ ls.length := by
          simp only [numVarDefsList] at hn
          omega
        obtain ⟨heapA, irA, rA, heqsub, hcovA⟩ :=
          graphUnflatten_ok (.nodeDef nty nindex noi nattrs nmd) τ τ1 heap ls ir
            heqgd rfl hcov hls hn1
        have hlsA : ∀ l ∈ ls.drop (numVarDefs (.nodeDef nty nindex noi nattrs nmd)),
            l.notVarObj = true := fun l hl => hls l (List.drop_subset _ _ hl)
        have hnA : numVarDefsList rest
            ≤ (ls.drop (numVarDefs (.nodeDef nty nindex noi nattrs nmd))).length := by
          rw [List.length_drop]
          simp only [numVarDefsList] at hn
          omega
        obtain ⟨heap2, ir2, ch, heqrest, hcov2⟩ :=
          unflattenAttrs_ok rest τ1 τ2 heapA
            (ls.drop (numVarDefs (.nodeDef nty nindex noi nattrs nmd))) irA hok hcovA hlsA hnA
        refine ⟨heap2, ir2, (k, .ref rA) :: ch, ?_, hcov2⟩
        simp only [unflattenAttrs, heqsub, heqrest, numVarDefsList, List.drop_drop]
      | variableDef vt vi voi vmd =>
        simp only [indicesOK] at heqgd
        split at heqgd
        · rename_i hvi
          subst hvi
          injection heqgd with hτ
          subst hτ
          have hlen : 0 < ls.length := by
            simp only [numVarDefsList, numVarDefs] at hn
            omega
          rcases ls with _ | ⟨leaf, restLeaves⟩
          · simp at hlen
          · have hleafok : leaf.notVarObj = true := hls leaf (by simp)
            have hvd : ∃ vd1, varFromLeaf vt vmd leaf = some vd1 := by
              cases leaf with
              | varRef x => cases hleafok
              | rawVal v => exact ⟨_, rfl⟩
              | varState a b c => exact ⟨_, rfl⟩
            obtain ⟨vd1, hvd1⟩ := hvd
            have hlsR : ∀ l ∈ restLeaves, l.notVarObj = true :=
              fun l hl => hls l (by simp [hl])
            have hnR : numVarDefsList rest ≤ restLeaves.length := by
              simp only [numVarDefsList, numVarDefs, List.length_cons] at hn ⊢
              omega
            obtain ⟨heap2, ir2, ch, heqrest, hcov2⟩ :=
              unflattenAttrs_ok rest (τ ++ [vt]) τ2 (heap ++ [.varObj vd1]) restLeaves
                (ir ++ [(τ.length, heap.length)]) hok
                (by simpa using hcov.push heap.length) hlsR hnR
            refine ⟨heap2, ir2, (k, .ref heap.length) :: ch, ?_, hcov2⟩
            simp only [unflattenAttrs, cacheLookup, hvd1, heqrest, numVarDefsList,
              numVarDefs, List.drop_succ_cons]
            rw [Nat.add_comm]
            simp [List.drop_succ_cons]
        · cases heqgd
    · cases hok

end



mutual

theorem graphUnflatten_underflow (gd : GraphDef) :
    ∀ τ τ2 heap ls ir, indicesOK gd τ = some τ2 → isNodeKind gd = true →
      CoversBelow ir τ.length →
      (∀ l ∈ ls, l.notVarObj = true) →
      ls.length < numVarDefs gd →
      graphUnflatten gd heap ls ir none = .fail .notEnoughLeaves := by
  cases gd with
  | nodeRef ty j =>
    intro τ τ2 heap ls ir hok hkind hcov hls hn
    simp [numVarDefs] at hn
  | variableDef a b c d =>
    intro τ τ2 heap ls ir hok hkind hcov hls hn
    cases hkind
  | staticDef s =>
    intro τ τ2 heap ls ir hok hkind hcov hls hn
    cases hkind
  | nodeDef ty index oi gattrs md =>
    intro τ τ2 heap ls ir hok hkind hcov hls hn
    simp only [indicesOK] at hok
    split at hok
    · rename_i hindex
      subst hindex
      have hnone : alookup ir τ.length = none := hcov.lookup_none
      have hfail :=
        unflattenAttrs_underflow gattrs (τ ++ [ty]) τ2 (heap ++ [.node ty [] md]) ls
          (ir ++ [(τ.length, heap.length)]) hok
          (by simpa using hcov.push heap.length)
          hls (by simpa [numVarDefs] using hn)
      simp only [graphUnflatten, cacheLookup, hnone, hfail]
    · cases hok

theorem unflattenAttrs_underflow (attrs : GDAttrs) :
    ∀ τ τ2 heap ls ir, indicesOKList attrs τ = some τ2 →
      CoversBelow ir τ.length →
      (∀ l ∈ ls, l.notVarObj = true) →
      ls.length < numVarDefsList attrs →
      unflattenAttrs attrs heap ls ir none = .fail .notEnoughLeaves := by
  cases attrs with
  | nil =>
    intro τ τ2 heap ls ir hok hcov hls hn
    simp [numVarDefsList] at hn
  | cons k gd rest =>
    intro τ τ2 heap ls ir hok hcov hls hn
    simp only [indicesOKList] at hok
    split at hok
    · rename_i τ1x heqgd
      cases gd with
      | staticDef s =>
        simp only [indicesOK] at heqgd
        injection heqgd with hτ
        subst hτ
        have hfail := unflattenAttrs_underflow rest τ τ2 heap ls ir hok hcov hls
          (by simpa [numVarDefsList, numVarDefs] using hn)
        simp only [unflattenAttrs, hfail]
      | nodeRef nty j =>
        simp only [indicesOK] at heqgd
        split at heqgd
        · rename_i hget
          injection heqgd with hτ
          subst hτ
          have hj : j < τ.length := by
            rcases hx : τ.get? j with _ | t
            · rw [hx] at hget; cases hget
            · exact List.get?_eq_some.mp hx |>.1
          obtain ⟨rc, hrc⟩ := hcov.lookup_lt hj
          have hfail := unflattenAttrs_underflow rest τ τ2 heap ls ir hok hcov hls
            (by simpa [numVarDefsList, numVarDefs] using hn)
          simp only [unflattenAttrs, hrc, hfail]
        · cases heqgd
      | nodeDef nty nindex noi nattrs nmd =>
        rcases Nat.lt_or_ge ls.length (numVarDefs (.nodeDef nty nindex noi nattrs nmd))
          with hfirst | hfirst
        · have hfail :=
            graphUnflatten_underflow (.nodeDef nty nindex noi nattrs nmd) τ τ1x heap ls ir
              heqgd rfl hcov hls hfirst
          simp only [unflattenAttrs, hfail]
        · obtain ⟨heapA, irA, rA, heqsub, hcovA⟩ :=
            graphUnflatten_ok (.nodeDef nty nindex noi nattrs nmd) τ τ1x heap ls ir
              heqgd rfl hcov hls hfirst
          have hlsA : ∀ l ∈ ls.drop (numVarDefs (.nodeDef nty nindex noi nattrs nmd)),
              l.notVarObj = true := fun l hl => hls l (List.drop_subset _ _ hl)
          have hnA : (ls.drop (numVarDefs (.nodeDef nty nindex noi nattrs nmd))).length
              < numVarDefsList rest := by
            rw [List.length_drop]
            simp only [numVarDefsList] at hn
            omega
          have hfail := unflattenAttrs_underflow rest τ1x τ2 heapA
            (ls.drop (numVarDefs (.nodeDef nty nindex noi nattrs nmd))) irA hok hcovA hlsA hnA
          simp only [unflattenAttrs, heqsub, hfail]
      | variableDef vt vi voi vmd =>
        simp only [indicesOK] at heqgd
        split at heqgd
        · rename_i hvi
          subst hvi
          injection heqgd with hτ
          subst hτ
          rcases ls with _ | ⟨leaf, restLeaves⟩
          · simp [unflattenAttrs]
          · have hleafok : leaf.notVarObj = true := hls leaf (by simp)
            have hvd : ∃ vd1, varFromLeaf vt vmd leaf = some vd1 := by
              cases leaf with
              | varRef x => cases hleafok
              | rawVal v => exact ⟨_, rfl⟩
              | varState a b c => exact ⟨_, rfl⟩
            obtain ⟨vd1, hvd1⟩ := hvd
            have hlsR : ∀ l ∈ restLeaves, l.notVarObj = true :=
              fun l hl => hls l (by simp [hl])
            have hnR : restLeaves.length < numVarDefsList rest := by
              simp only [numVarDefsList, numVarDefs, List.length_cons] at hn
              omega
            have hfail := unflattenAttrs_underflow rest (τ ++ [vt]) τ2
              (heap ++ [.varObj vd1]) restLeaves (ir ++ [(τ.length, heap.length)]) hok
              (by simpa using hcov.push heap.length) hlsR hnR
            simp only [unflattenAttrs, cacheLookup, hvd1, hfail]
        · cases heqgd
    · cases hok

end


/-- C7: leaf-count mismatch detection.  For a well-formed `NodeDef`
descriptor and non-Variable leaves: a successful `unflatten` implies the
leaf queue exactly matched the descriptor demand; fewer leaves fail with
the "Not enough leaves" error mid-traversal; extra leaves fail with the
"Incorrect number of leaves: got an extra ..." error after the top-level
call; unflatten never silently returns on a mismatched queue. -/
theorem claimC7_leaf_count (ty index : Nat) (oi : Option Nat) (gattrs : GDAttrs)
    (md : Nat) (τ2 : List Nat) (heap : Heap) (ls : List Leaf)
    (hwf : indicesOK (.nodeDef ty index oi gattrs md) [] = some τ2)
    (hleaves : ∀ l ∈ ls, l.notVarObj = true) :
    (∀ heap2 ir2 r,
        unflatten (.nodeDef ty index oi gattrs md) ls heap [] none = .ok (heap2, ir2, r) →
        ls.length = numVarDefs (.nodeDef ty index oi gattrs md)) ∧
    (ls.length < numVarDefs (.nodeDef ty index oi gattrs md) →
        unflatten (.nodeDef ty index oi gattrs md) ls heap [] none
          = .fail .notEnoughLeaves) ∧
    (numVarDefs (.nodeDef ty index oi gattrs md) < ls.length →
        unflatten (.nodeDef ty index oi gattrs md) ls heap [] none
          = .fail (.extraLeaves
              (ls.length - numVarDefs (.nodeDef ty index oi gattrs md)))) := by
  refine ⟨?_, ?_, ?_⟩
  · intro heap2 ir2 r h
    simp only [unflatten] at h
    split at h
    · rename_i heap1 leaves1 indexRef1 r1 heqrun
      obtain ⟨hle, hdrop⟩ := graphUnflatten_leaves _ _ _ _ _ _ _ _ _ heqrun
      split at h
      · rename_i hempty
        rw [hdrop] at hempty
        have hlz : (ls.drop (numVarDefs (.nodeDef ty index oi gattrs md))).length = 0 := by
          rcases hx : ls.drop (numVarDefs (.nodeDef ty index oi gattrs md)) with _ | _
          · rfl
          · rw [hx] at hempty; cases hempty
        rw [List.length_drop] at hlz
        omega
      · cases h
    · cases h
    · cases h
  · intro hlt
    have hfail := graphUnflatten_underflow (.nodeDef ty index oi gattrs md) [] τ2 heap ls []
      hwf rfl (by intro j; simp [alookup]) hleaves hlt
    simp only [unflatten, hfail]
  · intro hgt
    obtain ⟨heap2, ir2, r, heq, _⟩ :=
      graphUnflatten_ok (.nodeDef ty index oi gattrs md) [] τ2 heap ls []
        hwf rfl (by intro j; simp [alookup]) hleaves (le_of_lt hgt)
    have hne : (ls.drop (numVarDefs (GraphDef.nodeDef ty index oi gattrs md))).isEmpty
        = false := by
      rcases hx : ls.drop (numVarDefs (GraphDef.nodeDef ty index oi gattrs md)) with _ | _
      · exfalso
        have hlz : (ls.drop (numVarDefs (GraphDef.nodeDef ty index oi gattrs md))).length
            = 0 := by rw [hx]; rfl
        rw [List.length_drop] at hlz
        omega
      · rfl
    simp only [unflatten, heq, hne]
    simp [List.length_drop]

/-- C7 witness: a concrete descriptor demanding one leaf, given none,
fails with the "Not enough leaves" error. -/
theorem claimC7_leaf_count_witness :
    unflatten (.nodeDef 0 0 none (.cons 0 (.variableDef 5 1 none []) .nil) 0) [] [] [] none
      = .fail .notEnoughLeaves :=
  (claimC7_leaf_count 0 0 none (.cons 0 (.variableDef 5 1 none []) .nil) 0 [0, 5] [] []
    rfl (by intro l hl; cases hl)).2.1 (by decide)

theorem canonIr_zero (B : Nat) : canonIr B 0 = [] := rfl

theorem canonRi_zero (B : Nat) : canonRi B 0 = [] := rfl

theorem canonIr_snoc (B n : Nat) : canonIr B (n + 1) = canonIr B n ++ [(n, B + n)] := by
  simp [canonIr, List.range_succ]

theorem canonRi_snoc (B n : Nat) : canonRi B (n + 1) = canonRi B n ++ [(B + n, n)] := by
  simp [canonRi, List.range_succ]

theorem canonIr_length (B n : Nat) : (canonIr B n).length = n := by
  simp [canonIr]

theorem canonRi_length (B n : Nat) : (canonRi B n).length = n := by
  simp [canonRi]

theorem canonIr_lookup_ge (B : Nat) : ∀ n j, n ≤ j → alookup (canonIr B n) j = none := by
  intro n
  induction n with
  | zero => intro j hj; rfl
  | succ m ih =>
    intro j hj
    rw [canonIr_snoc, alookup_append_right _ (ih j (by omega))]
    simp only [alookup]
    rw [if_neg (by omega)]

theorem canonIr_lookup_lt (B : Nat) : ∀ n j, j < n → alookup (canonIr B n) j = some (B + j) := by
  intro n
  induction n with
  | zero => intro j hj; omega
  | succ m ih =>
    intro j hj
    rw [canonIr_snoc]
    rcases Nat.lt_or_ge j m with hlt | hge
    · exact alookup_append_left _ (ih j hlt)
    · have hj2 : j = m := by omega
      rw [hj2]
      rw [alookup_append_right _ (canonIr_lookup_ge B m m (le_refl _))]
      simp [alookup]

theorem canonRi_lookup_ge (B : Nat) : ∀ n j, n ≤ j → alookup (canonRi B n) (B + j) = none := by
  intro n
  induction n with
  | zero => intro j hj; rfl
  | succ m ih =>
    intro j hj
    rw [canonRi_snoc, alookup_append_right _ (ih j (by omega))]
    simp only [alookup]
    have hne : ¬(B + m = B + j) := by omega
    rw [if_neg hne]

theorem canonRi_lookup_lt (B : Nat) : ∀ n j, j < n → alookup (canonRi B n) (B + j) = some j := by
  intro n
  induction n with
  | zero => intro j hj; omega
  | succ m ih =>
    intro j hj
    rw [canonRi_snoc]
    rcases Nat.lt_or_ge j m with hlt | hge
    · exact alookup_append_left _ (ih j hlt)
    · have hj2 : j = m := by omega
      rw [hj2]
      rw [alookup_append_right _ (canonRi_lookup_ge B m m (le_refl _))]
      simp [alookup]


mutual

theorem leavesMatch_append (gd : GraphDef) :
    ∀ ls ext, numVarDefs gd ≤ ls.length → leavesMatch gd ls = true →
      leavesMatch gd (ls ++ ext) = true := by
  cases gd with
  | nodeDef ty i oi attrs md =>
    intro ls ext hn h
    exact leavesMatchList_append attrs ls ext hn h
  | variableDef vt i oi vmd =>
    intro ls ext hn h
    rcases ls with _ | ⟨leaf, rest⟩
    · simp [numVarDefs] at hn
    · cases leaf with
      | varState a v c => simpa [leavesMatch] using h
      | rawVal v => simp [leavesMatch] at h
      | varRef x => simp [leavesMatch] at h
  | nodeRef ty j => intro ls ext hn h; rfl
  | staticDef s => intro ls ext hn h; rfl

theorem leavesMatchList_append (attrs : GDAttrs) :
    ∀ ls ext, numVarDefsList attrs ≤ ls.length → leavesMatchList attrs ls = true →
      leavesMatchList attrs (ls ++ ext) = true := by
  cases attrs with
  | nil => intro ls ext hn h; rfl
  | cons k gd rest =>
    intro ls ext hn h
    simp only [leavesMatchList, Bool.and_eq_true] at h ⊢
    simp only [numVarDefsList] at hn
    refine ⟨leavesMatch_append gd ls ext (by omega) h.1, ?_⟩
    rw [List.drop_append_of_le_length (by omega)]
    exact leavesMatchList_append rest (ls.drop (numVarDefs gd)) ext
      (by rw [List.length_drop]; omega) h.2

end

mutual

theorem decodeObjs_snd (gd : GraphDef) :
    ∀ B ls, (decodeObjs gd B ls).2 = ls.drop (numVarDefs gd) := by
  cases gd with
  | nodeDef ty i oi attrs md =>
    intro B ls
    simp only [decodeObjs, numVarDefs]
    exact decodeObjsList_snd attrs B ls
  | variableDef vt i oi vmd =>
    intro B ls
    rcases ls with _ | ⟨leaf, rest⟩
    · rfl
    · simp only [decodeObjs, numVarDefs, List.drop_succ_cons, List.drop_zero]
      rcases h : varFromLeaf vt vmd leaf with _ | vd <;> simp
  | nodeRef ty j => intro B ls; rfl
  | staticDef s => intro B ls; rfl

theorem decodeObjsList_snd (attrs : GDAttrs) :
    ∀ B ls, (decodeObjsList attrs B ls).2 = ls.drop (numVarDefsList attrs) := by
  cases attrs with
  | nil => intro B ls; rfl
  | cons k gd rest =>
    intro B ls
    simp only [decodeObjsList, numVarDefsList]
    rw [decodeObjsList_snd rest, decodeObjs_snd gd, List.drop_drop]

end

mutual

theorem indicesOK_prefix (gd : GraphDef) :
    ∀ τ τ2, indicesOK gd τ = some τ2 → ∃ ext, τ2 = τ ++ ext := by
  cases gd with
  | nodeDef ty i oi attrs md =>
    intro τ τ2 h
    simp only [indicesOK] at h
    split at h
    · obtain ⟨ext, hext⟩ := indicesOKList_prefix attrs (τ ++ [ty]) τ2 h
      exact ⟨ty :: ext, by simp [hext]⟩
    · cases h
  | nodeRef ty j =>
    intro τ τ2 h
    simp only [indicesOK] at h
    split at h
    · injection h with h1
      exact ⟨[], by simp [h1]⟩
    · cases h
  | variableDef vt i oi vmd =>
    intro τ τ2 h
    simp only [indicesOK] at h
    split at h
    · injection h with h1
      exact ⟨[vt], h1.symm⟩
    · cases h
  | staticDef s =>
    intro τ τ2 h
    simp only [indicesOK] at h
    injection h with h1
    exact ⟨[], by simp [h1]⟩

theorem indicesOKList_prefix (attrs : GDAttrs) :
    ∀ τ τ2, indicesOKList attrs τ = some τ2 → ∃ ext, τ2 = τ ++ ext := by
  cases attrs with
  | nil =>
    intro τ τ2 h
    injection h with h1
    exact ⟨[], by simp [h1]⟩
  | cons k gd rest =>
    intro τ τ2 h
    simp only [indicesOKList] at h
    split at h
    · rename_i τ1 heq
      obtain ⟨e1, he1⟩ := indicesOK_prefix gd τ τ1 heq
      obtain ⟨e2, he2⟩ := indicesOKList_prefix rest τ1 τ2 h
      exact ⟨e1 ++ e2, by simp [he2, he1]⟩
    · cases h

end

mutual

theorem indicesOK_length (gd : GraphDef) :
    ∀ τ τ2, indicesOK gd τ = some τ2 → τ2.length = τ.length + numDefs gd := by
  cases gd with
  | nodeDef ty i oi attrs md =>
    intro τ τ2 h
    simp only [indicesOK] at h
    split at h
    · have := indicesOKList_length attrs (τ ++ [ty]) τ2 h
      simp only [List.length_append, List.length_singleton] at this
      simp only [numDefs]
      omega
    · cases h
  | nodeRef ty j =>
    intro τ τ2 h
    simp only [indicesOK] at h
    split at h
    · injection h with h1
      simp [← h1, numDefs]
    · cases h
  | variableDef vt i oi vmd =>
    intro τ τ2 h
    simp only [indicesOK] at h
    split at h
    · injection h with h1
      simp [← h1, numDefs]
    · cases h
  | staticDef s =>
    intro τ τ2 h
    injection h with h1
    simp [← h1, numDefs]

theorem indicesOKList_length (attrs : GDAttrs) :
    ∀ τ τ2, indicesOKList attrs τ = some τ2 → τ2.length = τ.length + numDefsList attrs := by
  cases attrs with
  | nil =>
    intro τ τ2 h
    injection h with h1
    simp [← h1, numDefsList]
  | cons k gd rest =>
    intro τ τ2 h
    simp only [indicesOKList] at h
    split at h
    · rename_i τ1 heq
      have h1 := indicesOK_length gd τ τ1 heq
      have h2 := indicesOKList_length rest τ1 τ2 h
      simp only [numDefsList]
      omega
    · cases h

end

mutual

theorem decodeObjs_length (gd : GraphDef) :
    ∀ B ls, numVarDefs gd ≤ ls.length → (∀ l ∈ ls, l.notVarObj = true) →
      (decodeObjs gd B ls).1.length = numDefs gd := by
  cases gd with
  | nodeDef ty i oi attrs md =>
    intro B ls hn hls
    simp only [decodeObjs, numDefs, List.length_cons]
    rw [decodeObjsList_length attrs B ls (by simpa [numVarDefs] using hn) hls]
  | variableDef vt i oi vmd =>
    intro B ls hn hls
    rcases ls with _ | ⟨leaf, rest⟩
    · simp [numVarDefs] at hn
    · have hok : leaf.notVarObj = true := hls leaf (by simp)
      have hvd : ∃ vd1, varFromLeaf vt vmd leaf = some vd1 := by
        cases leaf with
        | varRef x => cases hok
        | rawVal v => exact ⟨_, rfl⟩
        | varState a b c => exact ⟨_, rfl⟩
      obtain ⟨vd1, hvd1⟩ := hvd
      simp [decodeObjs, hvd1, numDefs]
  | nodeRef ty j => intro B ls hn hls; rfl
  | staticDef s => intro B ls hn hls; rfl

theorem decodeObjsList_length (attrs : GDAttrs) :
    ∀ B ls, numVarDefsList attrs ≤ ls.length → (∀ l ∈ ls, l.notVarObj = true) →
      (decodeObjsList attrs B ls).1.length = numDefsList attrs := by
  cases attrs with
  | nil => intro B ls hn hls; rfl
  | cons k gd rest =>
    intro B ls hn hls
    simp only [decodeObjsList, numDefsList, List.length_append]
    simp only [numVarDefsList] at hn
    rw [decodeObjs_length gd B ls (by omega) hls]
    rw [decodeObjs_snd gd]
    rw [decodeObjsList_length rest B (ls.drop (numVarDefs gd))
      (by rw [List.length_drop]; omega)
      (fun l hl => hls l (List.drop_subset _ _ hl))]

end


mutual

theorem decodeObjs_types (gd : GraphDef) :
    ∀ τ τ2 B ls, indicesOK gd τ = some τ2 →
      numVarDefs gd ≤ ls.length → (∀ l ∈ ls, l.notVarObj = true) →
      leavesMatch gd ls = true →
      ∀ j, τ.length ≤ j → j < τ2.length →
      ∃ o, (decodeObjs gd B ls).1.get? (j - τ.length) = some o ∧
        τ2.get? j = some o.tyOf := by
  cases gd with
  | nodeDef ty i oi attrs md =>
    intro τ τ2 B ls hok hn hls hm j hj1 hj2
    simp only [indicesOK] at hok
    split at hok
    · rcases Nat.eq_or_lt_of_le hj1 with hj | hj
      · refine ⟨.node ty (decodeVals attrs B) md, ?_, ?_⟩
        · simp [decodeObjs, ← hj]
        · obtain ⟨ext, hext⟩ := indicesOKList_prefix attrs (τ ++ [ty]) τ2 hok
          rw [hext, ← hj, List.get?_append (by simp), List.get?_concat_length]
          rfl
      · obtain ⟨o, ho1, ho2⟩ := decodeObjsList_types attrs (τ ++ [ty]) τ2 B ls hok
          (by simpa [numVarDefs] using hn) hls (by simpa [leavesMatch] using hm)
          j (by simp; omega) hj2
        refine ⟨o, ?_, ho2⟩
        obtain ⟨d, hd⟩ : ∃ d, j - τ.length = d + 1 := ⟨j - τ.length - 1, by omega⟩
        rw [hd]
        simp only [decodeObjs, List.get?_cons_succ]
        rw [← ho1]
        congr 1
        simp
        omega
    · cases hok
  | variableDef vt i oi vmd =>
    intro τ τ2 B ls hok hn hls hm j hj1 hj2
    simp only [indicesOK] at hok
    split at hok
    · injection hok with h1
      rcases ls with _ | ⟨leaf, rest⟩
      · simp [numVarDefs] at hn
      · cases leaf with
        | varRef x =>
          have hbad := hls (Leaf.varRef x) (by simp)
          simp [Leaf.notVarObj] at hbad
        | rawVal v => simp [leavesMatch] at hm
        | varState a v c =>
          simp only [leavesMatch, Bool.and_eq_true, decide_eq_true_eq] at hm
          have hj : j = τ.length := by
            rw [← h1] at hj2
            simp at hj2
            omega
          refine ⟨.varObj ⟨a, v, c⟩, ?_, ?_⟩
          · simp [decodeObjs, varFromLeaf, hj]
          · rw [← h1, hj, List.get?_concat_length]
            simp [Obj.tyOf, hm.1]
    · cases hok
  | nodeRef ty j0 =>
    intro τ τ2 B ls hok hn hls hm j hj1 hj2
    simp only [indicesOK] at hok
    split at hok
    · injection hok with h1
      rw [← h1] at hj2
      omega
    · cases hok
  | staticDef s =>
    intro τ τ2 B ls hok hn hls hm j hj1 hj2
    injection hok with h1
    rw [← h1] at hj2
    omega

theorem decodeObjsList_types (attrs : GDAttrs) :
    ∀ τ τ2 B ls, indicesOKList attrs τ = some τ2 →
      numVarDefsList attrs ≤ ls.length → (∀ l ∈ ls, l.notVarObj = true) →
      leavesMatchList attrs ls = true →
      ∀ j, τ.length ≤ j → j < τ2.length →
      ∃ o, (decodeObjsList attrs B ls).1.get? (j - τ.length) = some o ∧
        τ2.get? j = some o.tyOf := by
  cases attrs with
  | nil =>
    intro τ τ2 B ls hok hn hls hm j hj1 hj2
    injection hok with h1
    rw [← h1] at hj2
    omega
  | cons k gd rest =>
    intro τ τ2 B ls hok hn hls hm j hj1 hj2
    simp only [indicesOKList] at hok
    split at hok
    · rename_i τ1 heq
      simp only [numVarDefsList] at hn
      simp only [leavesMatchList, Bool.and_eq_true] at hm
      have hlen1 := indicesOK_length gd τ τ1 heq
      have hdl := decodeObjs_length gd B ls (by omega) hls
      rcases Nat.lt_or_ge j τ1.length with hj | hj
      · obtain ⟨o, ho1, ho2⟩ := decodeObjs_types gd τ τ1 B ls heq (by omega) hls hm.1 j hj1 hj
        refine ⟨o, ?_, ?_⟩
        · simp only [decodeObjsList]
          rw [List.get?_append (by omega), ho1]
        · obtain ⟨ext, hext⟩ := indicesOKList_prefix rest τ1 τ2 hok
          rw [hext, List.get?_append hj, ho2]
      · have hdrop : (decodeObjs gd B ls).2 = ls.drop (numVarDefs gd) := decodeObjs_snd gd B ls
        obtain ⟨o, ho1, ho2⟩ := decodeObjsList_types rest τ1 τ2 B (ls.drop (numVarDefs gd)) hok
          (by rw [List.length_drop]; omega)
          (fun l hl => hls l (List.drop_subset _ _ hl))
          hm.2 j hj hj2
        refine ⟨o, ?_, ho2⟩
        simp only [decodeObjsList]
        rw [hdrop]
        rw [List.get?_append_right (by omega), ← ho1]
        congr 1
        omega
    · cases hok

end


theorem get_append_middle {α : Type} (l1 : List α) (x : α) (l2 : List α) :
    (l1 ++ x :: l2).get? l1.length = some x := by
  rw [List.get?_append_right (le_refl _)]
  simp

theorem set_append_middle {α : Type} : ∀ (l1 : List α) (x : α) (l2 : List α) (y : α),
    (l1 ++ x :: l2).set l1.length y = l1 ++ y :: l2 := by
  intro l1
  induction l1 with
  | nil => intro x l2 y; rfl
  | cons a as ih =>
    intro x l2 y
    show a :: ((as ++ x :: l2).set as.length y) = a :: (as ++ y :: l2)
    rw [ih]

mutual

theorem graphUnflatten_decode (gd : GraphDef) :
    ∀ τ τ2 B heap ls, indicesOK gd τ = some τ2 → isNodeKind gd = true →
      (∀ l ∈ ls, l.notVarObj = true) →
      numVarDefs gd ≤ ls.length →
      heap.length = B + τ.length →
      graphUnflatten gd heap ls (canonIr B τ.length) none
        = .ok (heap ++ (decodeObjs gd B ls).1, ls.drop (numVarDefs gd),
            canonIr B τ2.length, B + rootIdx gd) := by
  cases gd with
  | nodeRef ty j =>
    intro τ τ2 B heap ls hok hkind hls hn hB
    simp only [indicesOK] at hok
    split at hok
    · rename_i hget
      injection hok with hτ
      subst hτ
      have hj : j < τ.length := by
        rcases hx : τ.get? j with _ | t
        · rw [hx] at hget; cases hget
        · exact List.get?_eq_some.mp hx |>.1
      simp [graphUnflatten, canonIr_lookup_lt B τ.length j hj, decodeObjs, numVarDefs,
        rootIdx]
    · cases hok
  | variableDef a b c d =>
    intro τ τ2 B heap ls hok hkind hls hn hB
    cases hkind
  | staticDef s =>
    intro τ τ2 B heap ls hok hkind hls hn hB
    cases hkind
  | nodeDef ty index oi gattrs md =>
    intro τ τ2 B heap ls hok hkind hls hn hB
    simp only [indicesOK] at hok
    split at hok
    · rename_i hindex
      subst hindex
      have hnone : alookup (canonIr B τ.length) τ.length = none :=
        canonIr_lookup_ge B τ.length τ.length (le_refl _)
      have hsnoc : canonIr B τ.length ++ [(τ.length, heap.length)]
          = canonIr B (τ.length + 1) := by
        rw [canonIr_snoc, hB]
      have heqattrs := unflattenAttrs_decode gattrs (τ ++ [ty]) τ2 B
        (heap ++ [.node ty [] md]) ls hok hls (by simpa [numVarDefs] using hn)
        (by simp [hB]; omega)
      simp only [List.length_append, List.length_singleton] at heqattrs
      rw [← hsnoc] at heqattrs
      have hget2 : ((heap ++ [Obj.node ty [] md])
            ++ (decodeObjsList gattrs B ls).1).get? heap.length
          = some (.node ty [] md) := by
        rw [List.append_assoc, List.singleton_append]
        exact get_append_middle heap _ _
      have hset : ((heap ++ [Obj.node ty [] md])
            ++ (decodeObjsList gattrs B ls).1).set heap.length
            (.node ty (decodeVals gattrs B) md)
          = heap ++ (decodeObjs (.nodeDef ty τ.length oi gattrs md) B ls).1 := by
        rw [List.append_assoc, List.singleton_append, set_append_middle]
        simp [decodeObjs]
      simp only [graphUnflatten, cacheLookup, hnone, heqattrs, hget2, numVarDefs]
      rw [hset, hB]
      simp [rootIdx, decodeObjs]
    · cases hok

theorem unflattenAttrs_decode (attrs : GDAttrs) :
    ∀ τ τ2 B heap ls, indicesOKList attrs τ = some τ2 →
      (∀ l ∈ ls, l.notVarObj = true) →
      numVarDefsList attrs ≤ ls.length →
      heap.length = B + τ.length →
      unflattenAttrs attrs heap ls (canonIr B τ.length) none
        = .ok (heap ++ (decodeObjsList attrs B ls).1, ls.drop (numVarDefsList attrs),
            canonIr B τ2.length, decodeVals attrs B) := by
  cases attrs with
  | nil =>
    intro τ τ2 B heap ls hok hls hn hB
    simp only [indicesOKList] at hok
    injection hok with hτ
    subst hτ
    simp [unflattenAttrs, numVarDefsList, decodeObjsList, decodeVals]
  | cons k gd rest =>
    intro τ τ2 B heap ls hok hls hn hB
    simp only [indicesOKList] at hok
    split at hok
    · rename_i τ1 heqgd
      cases gd with
      | staticDef s =>
        simp only [indicesOK] at heqgd
        injection heqgd with hτ
        subst hτ
        have heqrest := unflattenAttrs_decode rest τ τ2 B heap ls hok hls
          (by simpa [numVarDefsList, numVarDefs] using hn) hB
        simp only [unflattenAttrs, heqrest, numVarDefsList, numVarDefs, Nat.zero_add]
        simp [decodeObjsList, decodeObjs, decodeVals, decodeVal]
      | nodeRef nty j =>
        simp only [indicesOK] at heqgd
        split at heqgd
        · rename_i hget
          injection heqgd with hτ
          subst hτ
          have hj : j < τ.length := by
            rcases hx : τ.get? j with _ | t
            · rw [hx] at hget; cases hget
            · exact List.get?_eq_some.mp hx |>.1
          have heqrest := unflattenAttrs_decode rest τ τ2 B heap ls hok hls
            (by simpa [numVarDefsList, numVarDefs] using hn) hB
          simp only [unflattenAttrs, canonIr_lookup_lt B τ.length j hj, heqrest,
            numVarDefsList, numVarDefs, Nat.zero_add]
          simp [decodeObjsList, decodeObjs, decodeVals, decodeVal]
        · cases heqgd
      | nodeDef nty nindex noi nattrs nmd =>
        have hn1 : numVarDefs (.nodeDef nty nindex noi nattrs nmd) ≤ ls.length := by
          simp only [numVarDefsList] at hn
          omega
        have heqsub := graphUnflatten_decode (.nodeDef nty nindex noi nattrs nmd)
          τ τ1 B heap ls heqgd rfl hls hn1 hB
        have hlsA : ∀ l ∈ ls.drop (numVarDefs (.nodeDef nty nindex noi nattrs nmd)),
            l.notVarObj = true := fun l hl => hls l (List.drop_subset _ _ hl)
        have hnA : numVarDefsList rest
            ≤ (ls.drop (numVarDefs (.nodeDef nty nindex noi nattrs nmd))).length := by
          rw [List.length_drop]
          simp only [numVarDefsList] at hn
          omega
        have hBA : (heap ++ (decodeObjs (.nodeDef nty nindex noi nattrs nmd) B ls).1).length
            = B + τ1.length := by
          rw [List.length_append,
            decodeObjs_length (.nodeDef nty nindex noi nattrs nmd) B ls hn1 hls,
            indicesOK_length (.nodeDef nty nindex noi nattrs nmd) τ τ1 heqgd]
          omega
        have heqrest := unflattenAttrs_decode rest τ1 τ2 B
          (heap ++ (decodeObjs (.nodeDef nty nindex noi nattrs nmd) B ls).1)
          (ls.drop (numVarDefs (.nodeDef nty nindex noi nattrs nmd))) hok hlsA hnA hBA
        simp only [unflattenAttrs, heqsub, heqrest, numVarDefsList, List.drop_drop]
        simp only [decodeObjsList, decodeVals, decodeVal, rootIdx]
        rw [decodeObjs_snd (.nodeDef nty nindex noi nattrs nmd) B ls]
        simp [List.append_assoc]
      | variableDef vt vi voi vmd =>
        simp only [indicesOK] at heqgd
        split at heqgd
        · rename_i hvi
          subst hvi
          injection heqgd with hτ
          subst hτ
          have hlen : 0 < ls.length := by
            simp only [numVarDefsList, numVarDefs] at hn
            omega
          rcases ls with _ | ⟨leaf, restLeaves⟩
          · simp at hlen
          · have hleafok : leaf.notVarObj = true := hls leaf (by simp)
            have hvd : ∃ vd1, varFromLeaf vt vmd leaf = some vd1 := by
              cases leaf with
              | varRef x => cases hleafok
              | rawVal v => exact ⟨_, rfl⟩
              | varState a b c => exact ⟨_, rfl⟩
            obtain ⟨vd1, hvd1⟩ := hvd
            have hlsR : ∀ l ∈ restLeaves, l.notVarObj = true :=
              fun l hl => hls l (by simp [hl])
            have hnR : numVarDefsList rest ≤ restLeaves.length := by
              simp only [numVarDefsList, numVarDefs, List.length_cons] at hn
              omega
            have hBR : (heap ++ [Obj.varObj vd1]).length = B + (τ ++ [vt]).length := by
              simp [hB]
              omega
            have heqrest := unflattenAttrs_decode rest (τ ++ [vt]) τ2 B
              (heap ++ [.varObj vd1]) restLeaves hok hlsR hnR hBR
            simp only [List.length_append, List.length_singleton] at heqrest
            have hsnoc : canonIr B τ.length ++ [(τ.length, heap.length)]
                = canonIr B (τ.length + 1) := by
              rw [canonIr_snoc, hB]
            rw [← hsnoc] at heqrest
            simp only [unflattenAttrs, cacheLookup, hvd1, heqrest, numVarDefsList,
              numVarDefs, List.drop_succ_cons]
            simp only [decodeObjsList, decodeObjs, hvd1, decodeVals, decodeVal]
            rw [hB, Nat.add_comm 1 (numVarDefsList rest)]
            simp [List.drop_succ_cons]
        · cases heqgd
    · cases hok

end


theorem decodeVals_refs : ∀ (attrs : GDAttrs) (B : Nat) k c,
    (k, Val.ref c) ∈ decodeVals attrs B → B ≤ c := by
  intro attrs
  cases attrs with
  | nil => intro B k c h; cases h
  | cons k0 gd rest =>
    intro B k c h
    rcases List.mem_cons.mp h with h | h
    · cases gd with
      | staticDef s => cases h
      | nodeRef ty j =>
        injection h with h1 h2
        simp only [decodeVal] at h2
        injection h2 with h3
        rw [h3]
        exact Nat.le_add_right B _
      | nodeDef ty i oi attrs2 md =>
        injection h with h1 h2
        simp only [decodeVal] at h2
        injection h2 with h3
        rw [h3]
        exact Nat.le_add_right B _
      | variableDef vt i oi vmd =>
        injection h with h1 h2
        simp only [decodeVal] at h2
        injection h2 with h3
        rw [h3]
        exact Nat.le_add_right B _
    · exact decodeVals_refs rest B k c h

mutual

theorem decodeObjs_refs (gd : GraphDef) :
    ∀ B ls o, o ∈ (decodeObjs gd B ls).1 →
      ∀ ty a m, o = .node ty a m → ∀ k c, (k, Val.ref c) ∈ a → B ≤ c := by
  cases gd with
  | nodeDef ty0 i oi attrs md =>
    intro B ls o ho ty a m heq k c hmem
    simp only [decodeObjs] at ho
    rcases List.mem_cons.mp ho with ho | ho
    · rw [ho] at heq
      injection heq with h1 h2 h3
      rw [← h2] at hmem
      exact decodeVals_refs attrs B k c hmem
    · exact decodeObjsList_refs attrs B ls o ho ty a m heq k c hmem
  | variableDef vt i oi vmd =>
    intro B ls o ho ty a m heq k c hmem
    rcases ls with _ | ⟨leaf, rest⟩
    · cases ho
    · simp only [decodeObjs] at ho
      split at ho
      · rcases List.mem_cons.mp ho with ho | ho
        · rw [ho] at heq; cases heq
        · cases ho
      · cases ho
  | nodeRef ty j => intro B ls o ho; cases ho
  | staticDef s => intro B ls o ho; cases ho

theorem decodeObjsList_refs (attrs : GDAttrs) :
    ∀ B ls o, o ∈ (decodeObjsList attrs B ls).1 →
      ∀ ty a m, o = .node ty a m → ∀ k c, (k, Val.ref c) ∈ a → B ≤ c := by
  cases attrs with
  | nil => intro B ls o ho; cases ho
  | cons k0 gd rest =>
    intro B ls o ho ty a m heq k c hmem
    simp only [decodeObjsList] at ho
    rcases List.mem_append.mp ho with ho | ho
    · exact decodeObjs_refs gd B ls o ho ty a m heq k c hmem
    · exact decodeObjsList_refs rest B _ o ho ty a m heq k c hmem

end

theorem IdxCanonical.register {ri : RefMap} (h : IdxCanonical ri) (c : Ref) :
    IdxCanonical (ri ++ [(c, ri.length)]) := by
  unfold IdxCanonical at h ⊢
  simp [h, List.range_succ]

theorem tyList_append (heap : Heap) (ri : RefMap) (c : Ref) (n : Nat) :
    tyList heap (ri ++ [(c, n)]) = tyList heap ri ++ [tyAt heap c] := by
  simp [tyList]

theorem tyList_length (heap : Heap) (ri : RefMap) : (tyList heap ri).length = ri.length := by
  simp [tyList]

theorem alookup_canonical_get {ri : RefMap} {c : Ref} {j : Nat}
    (hcan : IdxCanonical ri) (h : alookup ri c = some j) : ri.get? j = some (c, j) := by
  obtain ⟨p, hp⟩ := List.mem_iff_get?.mp (alookup_mem h)
  have hsnd : (ri.map Prod.snd).get? p = some j := by
    rw [List.get?_map, hp]
    rfl
  rw [hcan, List.get?_range (by
    have := List.get?_eq_some.mp hp
    exact this.1)] at hsnd
  injection hsnd with hj
  subst hj
  exact hp

theorem tyList_get {heap : Heap} {ri : RefMap} {c : Ref} {j : Nat}
    (hcan : IdxCanonical ri) (h : alookup ri c = some j) :
    (tyList heap ri).get? j = some (tyAt heap c) := by
  unfold tyList
  rw [List.get?_map, alookup_canonical_get hcan h]
  rfl


theorem flattenAttrsGo_wf (heap : Heap)
    (rec : Ref → Option (List GKey) → RefMap → Option RefMap → List Leaf → Bool →
      Res (GraphDef × RefMap × List Leaf))
    (hrec : RecWF heap rec) :
    ∀ (vals : List (GKey × Val)) p ri acc gds ri2 ls2,
      flattenAttrsGo heap rec vals (some p) ri none acc false = .ok (gds, ri2, ls2) →
      IdxCanonical ri →
      indicesOKList gds (tyList heap ri) = some (tyList heap ri2) ∧
      IdxCanonical ri2 ∧ (∃ δ, ri2 = ri ++ δ) ∧
      (∃ em, ls2 = acc ++ em ∧ em.length = numVarDefsList gds ∧
        leavesMatchList gds em = true) ∧
      noOuterList gds = true ∧ hasArrayStaticList gds = false := by
  intro vals
  induction vals with
  | nil =>
    intro p ri acc gds ri2 ls2 h hcan
    simp only [flattenAttrsGo, Res.ok.injEq, Prod.mk.injEq] at h
    obtain ⟨rfl, rfl, rfl⟩ := h
    exact ⟨rfl, hcan, ⟨[], by simp⟩, ⟨[], by simp, rfl, rfl⟩, rfl, rfl⟩
  | cons hd rest ih =>
    obtain ⟨k, v⟩ := hd
    intro p ri acc gds ri2 ls2 h hcan
    cases v with
    | ref c =>
      simp only [flattenAttrsGo, Option.map] at h
      split at h
      · rename_i nty nattrs nmd hget
        split at h
        · rename_i gd1 ri1 ls1 heqrec
          split at h
          · rename_i gds1 ri2x ls2x heqrest
            simp only [Res.ok.injEq, Prod.mk.injEq] at h
            obtain ⟨rfl, rfl, rfl⟩ := h
            obtain ⟨hok1, hcan1, ⟨δ1, hδ1⟩, ⟨em1, hem1, hlen1, hm1⟩, hno1, har1, hkind1⟩ :=
              hrec c (p ++ [k]) ri acc gd1 ri1 ls1 heqrec hcan
            obtain ⟨hok2, hcan2, ⟨δ2, hδ2⟩, ⟨em2, hem2, hlen2, hm2⟩, hno2, har2⟩ :=
              ih p ri1 ls1 gds1 ri2x ls2x heqrest hcan1
            refine ⟨?_, hcan2, ⟨δ1 ++ δ2, by rw [hδ2, hδ1, List.append_assoc]⟩,
              ⟨em1 ++ em2, ?_, ?_, ?_⟩, ?_, ?_⟩
            · simp only [indicesOKList, hok1, hok2]
            · rw [hem2, hem1, List.append_assoc]
            · simp only [List.length_append, numVarDefsList, hlen1, hlen2]
            · simp only [leavesMatchList, Bool.and_eq_true]
              refine ⟨leavesMatch_append gd1 em1 em2 (by rw [hlen1]) hm1, ?_⟩
              rw [← hlen1, List.drop_left]
              exact hm2
            · simp [noOuterList, hno1, hno2]
            · simp [hasArrayStaticList, har1, har2]
          · cases h
          · cases h
        · cases h
        · cases h
      · rename_i vd hget
        split at h
        · rename_i j hal
          split at h
          · rename_i gds1 ri2x ls2x heqrest
            simp only [Res.ok.injEq, Prod.mk.injEq] at h
            obtain ⟨rfl, rfl, rfl⟩ := h
            obtain ⟨hok2, hcan2, ⟨δ2, hδ2⟩, ⟨em2, hem2, hlen2, hm2⟩, hno2, har2⟩ :=
              ih p ri acc gds1 ri2x ls2x heqrest hcan
            have hty : (tyList heap ri).get? j = some vd.varType := by
              rw [tyList_get hcan hal]
              unfold tyAt
              rw [hget]
              rfl
            have hix : indicesOK (.nodeRef vd.varType j) (tyList heap ri)
                = some (tyList heap ri) := by
              simp only [indicesOK]
              rw [if_pos hty]
            refine ⟨?_, hcan2, ⟨δ2, hδ2⟩, ⟨em2, hem2, ?_, ?_⟩, ?_, ?_⟩
            · simp only [indicesOKList, hix, hok2]
            · simp only [numVarDefsList, numVarDefs, Nat.zero_add, hlen2]
            · simp only [leavesMatchList, leavesMatch, Bool.true_and, List.drop_zero,
                numVarDefs]
              exact hm2
            · simp [noOuterList, noOuter, hno2]
            · simp [hasArrayStaticList, hasArrayStatic, har2]
          · cases h
          · cases h
        · rename_i hal
          split at h
          · rename_i gds1 ri2x ls2x heqrest
            simp only [Res.ok.injEq, Prod.mk.injEq] at h
            obtain ⟨rfl, rfl, rfl⟩ := h
            obtain ⟨hok2, hcan2, ⟨δ2, hδ2⟩, ⟨em2, hem2, hlen2, hm2⟩, hno2, har2⟩ :=
              ih p (ri ++ [(c, ri.length)]) (acc ++ [mkLeaf false (some p) c vd])
                gds1 ri2x ls2x heqrest (hcan.register c)
            have htyc : tyAt heap c = vd.varType := by
              unfold tyAt
              rw [hget]
              rfl
            have hix : indicesOK (.variableDef vd.varType ri.length (optLookup none c)
                vd.metadata) (tyList heap ri)
                = some (tyList heap (ri ++ [(c, ri.length)])) := by
              rw [tyList_append, htyc]
              simp only [indicesOK, tyList_length]
              simp
            refine ⟨?_, hcan2, ⟨(c, ri.length) :: δ2, ?_⟩,
              ⟨mkLeaf false (some p) c vd :: em2, ?_, ?_, ?_⟩, ?_, ?_⟩
            · simp only [indicesOKList, hix, hok2]
            · rw [hδ2, List.append_assoc]
              rfl
            · rw [hem2, List.append_assoc]
              rfl
            · simp only [List.length_cons, numVarDefsList, numVarDefs, hlen2]
              exact Nat.add_comm _ 1
            · simp only [leavesMatchList, Bool.and_eq_true]
              constructor
              · simp [leavesMatch, mkLeaf]
              · simpa [numVarDefs] using hm2
            · simp [noOuterList, noOuter, hno2, optLookup]
            · simp [hasArrayStaticList, hasArrayStatic, har2]
          · cases h
          · cases h
      · cases h
    | static s =>
      simp only [flattenAttrsGo] at h
      split at h
      · cases h
      · rename_i hsa
        split at h
        · rename_i gds1 ri2x ls2x heqrest
          simp only [Res.ok.injEq, Prod.mk.injEq] at h
          obtain ⟨rfl, rfl, rfl⟩ := h
          obtain ⟨hok2, hcan2, ⟨δ2, hδ2⟩, ⟨em2, hem2, hlen2, hm2⟩, hno2, har2⟩ :=
            ih p ri acc gds1 ri2x ls2x heqrest hcan
          refine ⟨?_, hcan2, ⟨δ2, hδ2⟩, ⟨em2, hem2, ?_, ?_⟩, ?_, ?_⟩
          · simp only [indicesOKList, indicesOK, hok2]
          · simp only [numVarDefsList, numVarDefs, Nat.zero_add, hlen2]
          · simp only [leavesMatchList, leavesMatch, Bool.true_and, List.drop_zero,
              numVarDefs]
            exact hm2
          · simp [noOuterList, noOuter, hno2]
          · simp only [hasArrayStaticList, hasArrayStatic, Bool.or_eq_false_iff]
            refine ⟨?_, har2⟩
            simpa using hsa
        · cases h
        · cases h


theorem graphFlatten_wf (heap : Heap) : ∀ fuel, RecWF heap (graphFlatten heap fuel) := by
  intro fuel
  induction fuel with
  | zero =>
    intro c p ri acc gd ri2 ls2 h hcan
    rw [graphFlatten_zero] at h
    cases h
  | succ f ih =>
    intro c p ri acc gd ri2 ls2 h hcan
    rw [graphFlatten_succ] at h
    simp only [flattenStep] at h
    split at h
    · cases h
    · cases h
    · rename_i ty attrs md hget
      split at h
      · rename_i i hal
        simp only [Res.ok.injEq, Prod.mk.injEq] at h
        obtain ⟨rfl, rfl, rfl⟩ := h
        have hty : (tyList heap ri).get? i = some ty := by
          rw [tyList_get hcan hal]
          unfold tyAt
          rw [hget]
          rfl
        refine ⟨?_, hcan, ⟨[], by simp⟩, ⟨[], by simp, rfl, rfl⟩, rfl, rfl, rfl⟩
        simp only [indicesOK]
        rw [if_pos hty]
      · rename_i hal
        split at h
        · rename_i gattrs ri2x ls2x heqgo
          simp only [Res.ok.injEq, Prod.mk.injEq] at h
          obtain ⟨rfl, rfl, rfl⟩ := h
          obtain ⟨hok2, hcan2, ⟨δ2, hδ2⟩, ⟨em2, hem2, hlen2, hm2⟩, hno2, har2⟩ :=
            flattenAttrsGo_wf heap (graphFlatten heap f) ih attrs p
              (ri ++ [(c, ri.length)]) acc gattrs ri2x ls2x heqgo (hcan.register c)
          have htyc : tyAt heap c = ty := by
            unfold tyAt
            rw [hget]
            rfl
          rw [tyList_append, htyc] at hok2
          refine ⟨?_, hcan2, ⟨(c, ri.length) :: δ2, ?_⟩, ⟨em2, hem2, ?_, ?_⟩, ?_, ?_, rfl⟩
          · simp only [indicesOK, tyList_length]
            rw [if_true]
            exact hok2
          · rw [hδ2, List.append_assoc]
            rfl
          · simpa [numVarDefs] using hlen2
          · simpa [leavesMatch] using hm2
          · simp [noOuter, optLookup, hno2]
          · simpa [hasArrayStatic] using har2
        · cases h
        · cases h


mutual

theorem flatten_decode_node (ty i : Nat) (oi : Option Nat) (attrs : GDAttrs) (md : Nat) :
    ∀ τ τ2 B ls heapF fuel p acc,
      indicesOK (.nodeDef ty i oi attrs md) τ = some τ2 →
      noOuter (.nodeDef ty i oi attrs md) = true →
      hasArrayStatic (.nodeDef ty i oi attrs md) = false →
      leavesMatch (.nodeDef ty i oi attrs md) ls = true →
      numVarDefs (.nodeDef ty i oi attrs md) ≤ ls.length →
      (∀ l ∈ ls, l.notVarObj = true) →
      (∀ j, τ.length ≤ j → j < τ2.length →
        heapF.get? (B + j) = (decodeObjs (.nodeDef ty i oi attrs md) B ls).1.get?
          (j - τ.length)) →
      (∀ j ty', τ.get? j = some ty' → ∃ o, heapF.get? (B + j) = some o ∧ o.tyOf = ty') →
      gdFuel (.nodeDef ty i oi attrs md) ≤ fuel →
      graphFlatten heapF fuel (B + i) (some p) (canonRi B τ.length) none acc false
        = .ok (.nodeDef ty i oi attrs md, canonRi B τ2.length,
            acc ++ ls.take (numVarDefs (.nodeDef ty i oi attrs md))) := by
  intro τ τ2 B ls heapF fuel p acc hok hno har hm hn hls hGet hType hfuel
  simp only [indicesOK] at hok
  split at hok
  · rename_i hi
    subst hi
    simp only [noOuter, Bool.and_eq_true, Option.isNone_iff_eq_none] at hno
    obtain ⟨rfl, hnoL⟩ := hno
    have hτ2len : τ2.length = (τ.length + 1) + numDefsList attrs := by
      have := indicesOKList_length attrs (τ ++ [ty]) τ2 hok
      simpa using this
    have hget0 : heapF.get? (B + τ.length) = some (.node ty (decodeVals attrs B) md) := by
      rw [hGet τ.length (le_refl _) (by omega), Nat.sub_self]
      simp [decodeObjs]
    have hal0 : alookup (canonRi B τ.length) (B + τ.length) = none :=
      canonRi_lookup_ge B τ.length τ.length (le_refl _)
    rcases fuel with _ | f
    · simp [gdFuel] at hfuel
    · have hGetL : ∀ j, (τ ++ [ty]).length ≤ j → j < τ2.length →
          heapF.get? (B + j) = (decodeObjsList attrs B ls).1.get? (j - (τ ++ [ty]).length) := by
        intro j hj1 hj2
        simp only [List.length_append, List.length_singleton] at hj1 ⊢
        rw [hGet j (by omega) hj2]
        obtain ⟨d, hd⟩ : ∃ d, j - τ.length = d + 1 := ⟨j - τ.length - 1, by omega⟩
        rw [hd]
        simp only [decodeObjs, List.get?_cons_succ]
        congr 1
        omega
      have hTypeL : ∀ j ty', (τ ++ [ty]).get? j = some ty' →
          ∃ o, heapF.get? (B + j) = some o ∧ o.tyOf = ty' := by
        intro j ty' hj
        rcases Nat.lt_or_ge j τ.length with hlt | hge
        · rw [List.get?_append hlt] at hj
          exact hType j ty' hj
        · have hj2 : j = τ.length := by
            have hlen := (List.get?_eq_some.mp hj).1
            simp only [List.length_append, List.length_singleton] at hlen
            omega
          subst hj2
          rw [List.get?_concat_length] at hj
          injection hj with hj
          exact ⟨.node ty (decodeVals attrs B) md, hget0, by simp [Obj.tyOf, hj]⟩
      have hrec := flatten_decode_list attrs (τ ++ [ty]) τ2 B ls heapF f p hok hnoL
        (by simpa [hasArrayStatic] using har)
        (by simpa [leavesMatch] using hm)
        (by simpa [numVarDefs] using hn) hls hGetL hTypeL
        (by simp only [gdFuel] at hfuel; omega)
      simp only [List.length_append, List.length_singleton] at hrec
      have hsnoc : canonRi B τ.length ++ [(B + τ.length, (canonRi B τ.length).length)]
          = canonRi B (τ.length + 1) := by
        rw [canonRi_length, canonRi_snoc]
      rw [graphFlatten_succ]
      simp only [flattenStep, hget0, hal0, hsnoc, hrec acc]
      simp [canonRi_length, optLookup, numVarDefs]
  · cases hok

theorem flatten_decode_list (attrs : GDAttrs) :
    ∀ τ τ2 B ls heapF f p,
      indicesOKList attrs τ = some τ2 →
      noOuterList attrs = true →
      hasArrayStaticList attrs = false →
      leavesMatchList attrs ls = true →
      numVarDefsList attrs ≤ ls.length →
      (∀ l ∈ ls, l.notVarObj = true) →
      (∀ j, τ.length ≤ j → j < τ2.length →
        heapF.get? (B + j) = (decodeObjsList attrs B ls).1.get? (j - τ.length)) →
      (∀ j ty', τ.get? j = some ty' → ∃ o, heapF.get? (B + j) = some o ∧ o.tyOf = ty') →
      gdFuelList attrs ≤ f →
      ∀ acc, flattenAttrsGo heapF (graphFlatten heapF f) (decodeVals attrs B) (some p)
          (canonRi B τ.length) none acc false
        = .ok (attrs, canonRi B τ2.length, acc ++ ls.take (numVarDefsList attrs)) := by
  cases attrs with
  | nil =>
    intro τ τ2 B ls heapF f p hok hno har hm hn hls hGet hType hfuel acc
    simp only [indicesOKList] at hok
    injection hok with hτ
    subst hτ
    simp [flattenAttrsGo, decodeVals, numVarDefsList]
  | cons k gd rest =>
    intro τ τ2 B ls heapF f p hok hno har hm hn hls hGet hType hfuel acc
    simp only [indicesOKList] at hok
    split at hok
    · rename_i τ1 heqgd
      simp only [noOuterList, Bool.and_eq_true] at hno
      simp only [hasArrayStaticList, Bool.or_eq_false_iff] at har
      simp only [leavesMatchList, Bool.and_eq_true] at hm
      simp only [numVarDefsList] at hn
      simp only [gdFuelList] at hfuel
      cases gd with
      | staticDef s =>
        simp only [indicesOK] at heqgd
        injection heqgd with hτ
        subst hτ
        have hsa : s.isArray = false := by simpa [hasArrayStatic] using har.1
        have hrest := flatten_decode_list rest τ τ2 B ls heapF f p hok hno.2 har.2 hm.2
          (by simpa [numVarDefs] using hn) hls
          (by
            intro j hj1 hj2
            rw [hGet j hj1 hj2]
            simp [decodeObjsList, decodeObjs])
          hType (by omega) acc
        simp only [decodeVals, decodeVal, flattenAttrsGo, hsa, Bool.false_eq_true,
          ↓reduceIte, hrest]
        simp [numVarDefs, numVarDefsList, Nat.zero_add]
      | nodeRef nty j0 =>
        simp only [indicesOK] at heqgd
        split at heqgd
        · rename_i hgetj
          injection heqgd with hτ
          subst hτ
          have hj0 : j0 < τ.length := (List.get?_eq_some.mp hgetj).1
          obtain ⟨o, hoget, hoty⟩ := hType j0 nty hgetj
          have hrest := flatten_decode_list rest τ τ2 B ls heapF f p hok hno.2 har.2 hm.2
            (by simpa [numVarDefs] using hn) hls
            (by
              intro j hj1 hj2
              rw [hGet j hj1 hj2]
              simp [decodeObjsList, decodeObjs])
            hType (by omega) acc
          have halj : alookup (canonRi B τ.length) (B + j0) = some j0 :=
            canonRi_lookup_lt B τ.length j0 hj0
          cases o with
          | node ty2 a2 m2 =>
            rcases f with _ | f1
            · simp [gdFuel] at hfuel
            · have hstep : graphFlatten heapF (f1 + 1) (B + j0)
                  (some (p ++ [k])) (canonRi B τ.length) none acc false
                  = .ok (.nodeRef ty2 j0, canonRi B τ.length, acc) := by
                rw [graphFlatten_succ]
                simp only [flattenStep, hoget, halj]
              simp only [decodeVals, decodeVal, flattenAttrsGo, Option.map, hoget,
                hstep, hrest]
              simp only [Obj.tyOf] at hoty
              simp [hoty, numVarDefsList, numVarDefs, Nat.zero_add]
          | varObj vd =>
            simp only [decodeVals, decodeVal, flattenAttrsGo, Option.map, hoget, halj,
              hrest]
            simp only [Obj.tyOf] at hoty
            simp [hoty, numVarDefsList, numVarDefs, Nat.zero_add]
        · cases heqgd
      | variableDef vt vi voi vmd =>
        simp only [indicesOK] at heqgd
        split at heqgd
        · rename_i hvi
          subst hvi
          injection heqgd with hτ
          rcases ls with _ | ⟨leaf, ls1⟩
          · simp [numVarDefs] at hn
          · cases leaf with
            | varRef x =>
              have hbad := hls (Leaf.varRef x) (by simp)
              simp [Leaf.notVarObj] at hbad
            | rawVal v => simp [leavesMatch] at hm
            | varState a v c =>
              simp only [leavesMatch, Bool.and_eq_true, decide_eq_true_eq] at hm
              obtain ⟨⟨rfl, rfl⟩, hm2⟩ := hm
              have hvoi : voi = none := by
                simpa [noOuter, Option.isNone_iff_eq_none] using hno.1
              subst hvoi
              have hτ2len : τ2.length = (τ.length + 1) + numDefsList rest := by
                have := indicesOKList_length rest (τ ++ [a]) τ2 (by rw [hτ]; exact hok)
                simpa using this
              have hget0 : heapF.get? (B + τ.length) = some (.varObj ⟨a, v, c⟩) := by
                rw [hGet τ.length (le_refl _) (by omega), Nat.sub_self]
                simp [decodeObjsList, decodeObjs, varFromLeaf]
              have hal0 : alookup (canonRi B τ.length) (B + τ.length) = none :=
                canonRi_lookup_ge B τ.length τ.length (le_refl _)
              have hGetR : ∀ j, (τ ++ [a]).length ≤ j → j < τ2.length →
                  heapF.get? (B + j)
                    = (decodeObjsList rest B ls1).1.get? (j - (τ ++ [a]).length) := by
                intro j hj1 hj2
                simp only [List.length_append, List.length_singleton] at hj1 ⊢
                rw [hGet j (by omega) hj2]
                obtain ⟨d, hd⟩ : ∃ d, j - τ.length = d + 1 := ⟨j - τ.length - 1, by omega⟩
                rw [hd]
                simp only [decodeObjsList, decodeObjs, varFromLeaf, List.singleton_append,
                  List.get?_cons_succ]
                congr 1
                omega
              have hTypeR : ∀ j ty', (τ ++ [a]).get? j = some ty' →
                  ∃ o, heapF.get? (B + j) = some o ∧ o.tyOf = ty' := by
                intro j ty' hj
                rcases Nat.lt_or_ge j τ.length with hlt | hge
                · rw [List.get?_append hlt] at hj
                  exact hType j ty' hj
                · have hj2 : j = τ.length := by
                    have hlen := (List.get?_eq_some.mp hj).1
                    simp only [List.length_append, List.length_singleton] at hlen
                    omega
                  subst hj2
                  rw [List.get?_concat_length] at hj
                  injection hj with hj
                  exact ⟨.varObj ⟨a, v, c⟩, hget0, by simp [Obj.tyOf, hj]⟩
              have hrest := flatten_decode_list rest (τ ++ [a]) τ2 B ls1 heapF f p
                (by rw [hτ]; exact hok) hno.2 har.2
                (by simpa using hm2)
                (by simp only [numVarDefs, List.length_cons] at hn; omega)
                (fun l hl => hls l (by simp [hl]))
                hGetR hTypeR (by simp only [gdFuel] at hfuel; omega)
                (acc ++ [Leaf.varState a v c])
              simp only [List.length_append, List.length_singleton] at hrest
              have hsnoc : canonRi B τ.length
                    ++ [(B + τ.length, (canonRi B τ.length).length)]
                  = canonRi B (τ.length + 1) := by
                rw [canonRi_length, canonRi_snoc]
              simp only [decodeVals, decodeVal, flattenAttrsGo, hget0, hal0, hsnoc]
              rw [show mkLeaf false (some p) (B + τ.length) ⟨a, v, c⟩
                  = Leaf.varState a v c from rfl]
              simp only [hrest]
              simp only [canonRi_length, optLookup, numVarDefsList, numVarDefs,
                List.take_succ_cons]
              simp [List.append_assoc, Nat.add_comm 1 (numVarDefsList rest)]
        · cases heqgd
      | nodeDef nty ni noi nattrs nmd =>
        have hlen1 := indicesOK_length (.nodeDef nty ni noi nattrs nmd) τ τ1 heqgd
        have hlen1x := hlen1
        simp only [numDefs] at hlen1x
        have hlen2 := indicesOKList_length rest τ1 τ2 hok
        have hn1 : numVarDefs (.nodeDef nty ni noi nattrs nmd) ≤ ls.length := by omega
        have hni : ni = τ.length := by
          simp only [indicesOK] at heqgd
          split at heqgd
          · assumption
          · cases heqgd
        have hdl := decodeObjs_length (.nodeDef nty ni noi nattrs nmd) B ls hn1 hls
        have hGet1 : ∀ j, τ.length ≤ j → j < τ1.length →
            heapF.get? (B + j)
              = (decodeObjs (.nodeDef nty ni noi nattrs nmd) B ls).1.get?
                  (j - τ.length) := by
          intro j hj1 hj2
          have hb : j < τ2.length := by omega
          rw [hGet j hj1 hb]
          simp only [decodeObjsList]
          have hlt : j - τ.length
              < (decodeObjs (.nodeDef nty ni noi nattrs nmd) B ls).1.length := by
            rw [hdl]
            omega
          rw [List.get?_append hlt]
        have hsub := flatten_decode_node nty ni noi nattrs nmd τ τ1 B ls heapF f
          (p ++ [k]) acc heqgd hno.1 har.1 hm.1 hn1 hls hGet1 hType (by omega)
        have hgetroot : heapF.get? (B + ni)
            = some (.node nty (decodeVals nattrs B) nmd) := by
          rw [hni]
          have hb : τ.length < τ2.length := by omega
          rw [hGet τ.length (le_refl _) hb, Nat.sub_self]
          simp [decodeObjsList, decodeObjs]
        have hdrop : (decodeObjs (.nodeDef nty ni noi nattrs nmd) B ls).2
            = ls.drop (numVarDefs (.nodeDef nty ni noi nattrs nmd)) :=
          decodeObjs_snd _ B ls
        have hGetR : ∀ j, τ1.length ≤ j → j < τ2.length →
            heapF.get? (B + j)
              = (decodeObjsList rest B
                  (ls.drop (numVarDefs (.nodeDef nty ni noi nattrs nmd)))).1.get?
                  (j - τ1.length) := by
          intro j hj1 hj2
          have hb : τ.length ≤ j := by omega
          rw [hGet j hb hj2]
          simp only [decodeObjsList]
          rw [hdrop]
          have hge2 : (decodeObjs (.nodeDef nty ni noi nattrs nmd) B ls).1.length
              ≤ j - τ.length := by
            rw [hdl]
            omega
          rw [List.get?_append_right hge2]
          congr 1
          rw [hdl]
          omega
        have hTypeR : ∀ j ty', τ1.get? j = some ty' →
            ∃ o, heapF.get? (B + j) = some o ∧ o.tyOf = ty' := by
          intro j ty' hj
          rcases Nat.lt_or_ge j τ.length with hlt | hge
          · obtain ⟨ext, hext⟩ := indicesOK_prefix _ τ τ1 heqgd
            rw [hext, List.get?_append hlt] at hj
            exact hType j ty' hj
          · have hjlt : j < τ1.length := (List.get?_eq_some.mp hj).1
            obtain ⟨o, ho1, ho2⟩ := decodeObjs_types (.nodeDef nty ni noi nattrs nmd)
              τ τ1 B ls heqgd hn1 hls hm.1 j hge hjlt
            refine ⟨o, ?_, ?_⟩
            · rw [hGet1 j hge hjlt, ho1]
            · rw [hj] at ho2
              injection ho2 with ho2
              exact ho2.symm
        have hrest := flatten_decode_list rest τ1 τ2 B
          (ls.drop (numVarDefs (.nodeDef nty ni noi nattrs nmd))) heapF f p hok
          hno.2 har.2 hm.2
          (by rw [List.length_drop]; omega)
          (fun l hl => hls l (List.drop_subset _ _ hl))
          hGetR hTypeR (by omega)
          (acc ++ ls.take (numVarDefs (.nodeDef nty ni noi nattrs nmd)))
        simp only [decodeVals, decodeVal, flattenAttrsGo, Option.map, hgetroot,
          hsub, hrest]
        simp only [numVarDefsList, List.append_assoc, ← List.take_add]
    · cases hok

end


mutual

theorem leavesMatch_notVarObj (gd : GraphDef) :
    ∀ ls, leavesMatch gd ls = true →
      ∀ l ∈ ls.take (numVarDefs gd), l.notVarObj = true := by
  cases gd with
  | nodeDef ty i oi attrs md =>
    intro ls hm
    exact leavesMatchList_notVarObj attrs ls (by simpa [leavesMatch] using hm)
  | variableDef vt i oi vmd =>
    intro ls hm l hl
    rcases ls with _ | ⟨leaf, rest⟩
    · cases hl
    · cases leaf with
      | varRef x => simp [leavesMatch] at hm
      | rawVal v => simp [leavesMatch] at hm
      | varState a v c =>
        simp only [numVarDefs, List.take_succ_cons, List.take_zero] at hl
        rcases List.mem_singleton.mp hl with rfl
        rfl
  | nodeRef ty j => intro ls hm l hl; cases hl
  | staticDef s => intro ls hm l hl; cases hl

theorem leavesMatchList_notVarObj (attrs : GDAttrs) :
    ∀ ls, leavesMatchList attrs ls = true →
      ∀ l ∈ ls.take (numVarDefsList attrs), l.notVarObj = true := by
  cases attrs with
  | nil => intro ls hm l hl; cases hl
  | cons k gd rest =>
    intro ls hm l hl
    simp only [leavesMatchList, Bool.and_eq_true] at hm
    simp only [numVarDefsList] at hl
    rw [List.take_add] at hl
    rcases List.mem_append.mp hl with hl | hl
    · exact leavesMatch_notVarObj gd ls hm.1 l hl
    · exact leavesMatchList_notVarObj rest (ls.drop (numVarDefs gd)) hm.2 l hl

end

/-- C2: round-trip identity.  For any graph that flattens successfully
(with path tracking, fresh maps, `return_variables=False`), unflattening
the resulting `(descriptor, leaves)` pair with no outer-reuse cache
succeeds, returns a freshly allocated root (at the old heap end), leaves
every pre-existing object untouched, keeps the rebuilt object graph
entirely inside the fresh region (so every Variable of the result is a new
object, none of the original Variables), and the rebuilt graph is
structurally equal to the original: re-flattening it yields the identical
descriptor and identical leaves. -/
theorem claimC2_roundtrip (heap : Heap) (fuel : Nat) (r : Ref)
    (gd : GraphDef) (ri : RefMap) (ls : List Leaf)
    (h : flatten heap fuel r true false none none = .ok (gd, ri, ls)) :
    ∃ heap2 ir2,
      unflatten gd ls heap [] none = .ok (heap2, ir2, heap.length) ∧
      (∀ a, a < heap.length → heap2.get? a = heap.get? a) ∧
      (∀ a ty nattrs md, heap.length ≤ a →
        heap2.get? a = some (.node ty nattrs md) →
        ∀ k c, (k, Val.ref c) ∈ nattrs → heap.length ≤ c) ∧
      (∃ fuel2 ri2, flatten heap2 fuel2 heap.length true false none none
        = .ok (gd, ri2, ls)) := by
  have h0 : graphFlatten heap fuel r (some []) [] none [] false = .ok (gd, ri, ls) := by
    simpa [flatten] using h
  obtain ⟨hok, hcan, ⟨δ, hδ⟩, ⟨em, hem, hlen, hm⟩, hno, har, hkind⟩ :=
    graphFlatten_wf heap fuel r [] [] [] gd ri ls h0 rfl
  have heql : em = ls := by simpa using hem.symm
  rw [heql] at hlen hm
  have hτ : tyList heap ([] : RefMap) = ([] : List Nat) := rfl
  rw [hτ] at hok
  have hnotv : ∀ l ∈ ls, l.notVarObj = true := by
    intro l hl
    have hthis := leavesMatch_notVarObj gd ls hm l
    have htk : ls.take (numVarDefs gd) = ls := by
      rw [← hlen, List.take_length]
    rw [htk] at hthis
    exact hthis hl
  obtain ⟨ty0, attrs0, md0, hgd⟩ : ∃ ty0 attrs0 md0, gd = .nodeDef ty0 0 none attrs0 md0 := by
    cases gd with
    | nodeDef ty i oi attrs md =>
      have hi : i = 0 := by
        simp only [indicesOK] at hok
        split at hok
        · simpa using (by assumption : i = List.length ([] : List Nat))
        · cases hok
      have hoi : oi = none := by
        have h2 : noOuter (.nodeDef ty i oi attrs md) = true := hno
        simp only [noOuter, Bool.and_eq_true, Option.isNone_iff_eq_none] at h2
        exact h2.1
      exact ⟨ty, attrs, md, by rw [hi, hoi]⟩
    | nodeRef ty j =>
      simp only [indicesOK] at hok
      split at hok
      · rename_i hget
        simp at hget
      · cases hok
    | variableDef a b c d => cases hkind
    | staticDef s => cases hkind
  have hex : ls.length = numVarDefs gd := hlen
  have hdec := graphUnflatten_decode gd [] (tyList heap ri) heap.length heap ls hok hkind
    hnotv (by omega) (by simp)
  simp only [List.length_nil] at hdec
  rw [canonIr_zero] at hdec
  have hdrop : ls.drop (numVarDefs gd) = [] := by
    rw [← hex, List.drop_length]
  rw [hdrop] at hdec
  refine ⟨heap ++ (decodeObjs gd heap.length ls).1, canonIr heap.length (tyList heap ri).length,
    ?_, ?_, ?_, ?_⟩
  · rw [hgd] at hdec ⊢
    simp only [unflatten, hdec]
    simp [rootIdx]
  · intro a ha
    exact List.get?_append ha
  · intro a ty nattrs md ha hget k c hmem
    rw [List.get?_append_right ha] at hget
    have homem := List.get?_mem hget
    exact decodeObjs_refs gd heap.length ls _ homem ty nattrs md rfl k c hmem
  · refine ⟨gdFuel gd, canonRi heap.length (tyList heap ri).length, ?_⟩
    have hGetF : ∀ j, (0 : Nat) ≤ j → j < (tyList heap ri).length →
        (heap ++ (decodeObjs gd heap.length ls).1).get? (heap.length + j)
          = (decodeObjs gd heap.length ls).1.get? (j - 0) := by
      intro j hj1 hj2
      rw [List.get?_append_right (by omega)]
      congr 1
      omega
    have hTypeF : ∀ j ty', ([] : List Nat).get? j = some ty' →
        ∃ o, (heap ++ (decodeObjs gd heap.length ls).1).get? (heap.length + j) = some o ∧
          o.tyOf = ty' := by
      intro j ty' hj
      simp at hj
    rw [hgd] at hGetF hTypeF hok hno har hm hex ⊢
    have hE := flatten_decode_node ty0 0 none attrs0 md0 [] (tyList heap ri) heap.length ls
      (heap ++ (decodeObjs (.nodeDef ty0 0 none attrs0 md0) heap.length ls).1)
      (gdFuel (.nodeDef ty0 0 none attrs0 md0)) [] [] hok hno har hm (by omega) hnotv
      (by simpa using hGetF) hTypeF (le_refl _)
    simp only [List.length_nil] at hE
    rw [canonRi_zero] at hE
    simp only [Nat.add_zero] at hE
    have htake : ls.take (numVarDefs (.nodeDef ty0 0 none attrs0 md0)) = ls := by
      rw [← hex, List.take_length]
    rw [htake] at hE
    simpa [flatten] using hE


/-- C2 witness: a node holding one Variable round-trips — unflatten of its
flatten output rebuilds a fresh copy at address 2 that re-flattens to the
identical descriptor and leaves. -/
theorem claimC2_roundtrip_witness :
    ∃ heap2 ir2,
      unflatten (.nodeDef 0 0 none (.cons 0 (.variableDef 7 1 none [(1, 2)]) .nil) 5)
          [.varState 7 3 [(1, 2)]]
          [.node 0 [(0, .ref 1)] 5, .varObj ⟨7, 3, [(1, 2)]⟩] [] none
        = .ok (heap2, ir2, 2) ∧
      (∀ a, a < 2 → heap2.get? a
          = ([.node 0 [(0, .ref 1)] 5, .varObj ⟨7, 3, [(1, 2)]⟩] : Heap).get? a) ∧
      (∀ a ty nattrs md, 2 ≤ a → heap2.get? a = some (.node ty nattrs md) →
        ∀ k c, (k, Val.ref c) ∈ nattrs → 2 ≤ c) ∧
      (∃ fuel2 ri2, flatten heap2 fuel2 2 true false none none
        = .ok (.nodeDef 0 0 none (.cons 0 (.variableDef 7 1 none [(1, 2)]) .nil) 5, ri2,
            [.varState 7 3 [(1, 2)]])) :=
  claimC2_roundtrip [.node 0 [(0, .ref 1)] 5, .varObj ⟨7, 3, [(1, 2)]⟩] 2 0
    (.nodeDef 0 0 none (.cons 0 (.variableDef 7 1 none [(1, 2)]) .nil) 5)
    [(0, 0), (1, 1)] [.varState 7 3 [(1, 2)]] (by rfl)

mutual

theorem indicesOK_defOccs (gd : GraphDef) :
    ∀ τ τ2, indicesOK gd τ = some τ2 →
      ∀ n, defOccs gd n = if τ.length ≤ n ∧ n < τ2.length then 1 else 0 := by
  cases gd with
  | nodeDef ty i oi attrs md =>
    intro τ τ2 hok n
    simp only [indicesOK] at hok
    split at hok
    · rename_i hi
      subst hi
      have hrec := indicesOKList_defOccs attrs (τ ++ [ty]) τ2 hok n
      have hlen := indicesOKList_length attrs (τ ++ [ty]) τ2 hok
      simp only [List.length_append, List.length_singleton] at hlen hrec
      simp only [defOccs, hrec]
      split_ifs <;> omega
    · cases hok
  | variableDef vt i oi vmd =>
    intro τ τ2 hok n
    simp only [indicesOK] at hok
    split at hok
    · rename_i hi
      subst hi
      injection hok with hτ
      subst hτ
      simp only [defOccs, List.length_append, List.length_singleton]
      split_ifs <;> omega
    · cases hok
  | nodeRef ty j =>
    intro τ τ2 hok n
    simp only [indicesOK] at hok
    split at hok
    · injection hok with hτ
      subst hτ
      simp only [defOccs]
      split_ifs <;> omega
    · cases hok
  | staticDef s =>
    intro τ τ2 hok n
    injection hok with hτ
    subst hτ
    simp only [defOccs]
    split_ifs <;> omega

theorem indicesOKList_defOccs (attrs : GDAttrs) :
    ∀ τ τ2, indicesOKList attrs τ = some τ2 →
      ∀ n, defOccsList attrs n = if τ.length ≤ n ∧ n < τ2.length then 1 else 0 := by
  cases attrs with
  | nil =>
    intro τ τ2 hok n
    injection hok with hτ
    subst hτ
    simp only [defOccsList]
    split_ifs <;> omega
  | cons k gd rest =>
    intro τ τ2 hok n
    simp only [indicesOKList] at hok
    split at hok
    · rename_i τ1 heqgd
      have h1 := indicesOK_defOccs gd τ τ1 heqgd n
      have h2 := indicesOKList_defOccs rest τ1 τ2 hok n
      have hl1 := indicesOK_length gd τ τ1 heqgd
      have hl2 := indicesOKList_length rest τ1 τ2 hok
      simp only [defOccsList, h1, h2]
      split_ifs <;> omega
    · cases hok

end

/-- C3: sharing preservation.  General half: a successful flatten assigns
every index to exactly one defining entry (`NodeDef`/`VariableDef`) of the
descriptor — shared objects are never duplicated.  Concrete half (the
two-path scenario): a node `X` reachable from the root through two
different attributes yields a descriptor with exactly one `NodeDef` and
exactly one `NodeRef` carrying `X`'s index, and unflattening it places the
very same reconstructed instance (heap address 1) at both paths. -/
theorem claimC3_sharing :
    (∀ heap fuel r gd ri ls,
      flatten heap fuel r true false none none = .ok (gd, ri, ls) →
      ∀ n, defOccs gd n ≤ 1) ∧
    (flatten [.node 0 [(0, .ref 1), (1, .ref 1)] 0, .node 1 [] 9] 3 0 true false none none
        = .ok (.nodeDef 0 0 none (.cons 0 (.nodeDef 1 1 none .nil 9)
            (.cons 1 (.nodeRef 1 1) .nil)) 0, [(0, 0), (1, 1)], []) ∧
      defOccs (.nodeDef 0 0 none (.cons 0 (.nodeDef 1 1 none .nil 9)
          (.cons 1 (.nodeRef 1 1) .nil)) 0) 1 = 1 ∧
      refOccs (.nodeDef 0 0 none (.cons 0 (.nodeDef 1 1 none .nil 9)
          (.cons 1 (.nodeRef 1 1) .nil)) 0) 1 = 1 ∧
      unflatten (.nodeDef 0 0 none (.cons 0 (.nodeDef 1 1 none .nil 9)
          (.cons 1 (.nodeRef 1 1) .nil)) 0) [] [] [] none
        = .ok ([.node 0 [(0, .ref 1), (1, .ref 1)] 0, .node 1 [] 9], [(0, 0), (1, 1)], 0)) := by
  constructor
  · intro heap fuel r gd ri ls h n
    have h0 : graphFlatten heap fuel r (some []) [] none [] false = .ok (gd, ri, ls) := by
      simpa [flatten] using h
    obtain ⟨hok, -, -, -, -, -, -⟩ := graphFlatten_wf heap fuel r [] [] [] gd ri ls h0 rfl
    have hτ : tyList heap ([] : RefMap) = ([] : List Nat) := rfl
    rw [hτ] at hok
    rw [indicesOK_defOccs gd [] (tyList heap ri) hok n]
    split_ifs <;> omega
  · exact ⟨rfl, rfl, rfl, rfl⟩

/-- C3 witness: in the two-path scenario, index 1 is defined exactly once
in the flattened descriptor. -/
theorem claimC3_sharing_witness :
    defOccs (.nodeDef 0 0 none (.cons 0 (.nodeDef 1 1 none .nil 9)
        (.cons 1 (.nodeRef 1 1) .nil)) 0) 1 ≤ 1 :=
  claimC3_sharing.1 [.node 0 [(0, .ref 1), (1, .ref 1)] 0, .node 1 [] 9] 3 0
    (.nodeDef 0 0 none (.cons 0 (.nodeDef 1 1 none .nil 9) (.cons 1 (.nodeRef 1 1) .nil)) 0)
    [(0, 0), (1, 1)] [] (by rfl) 1

/-- C5: identity-keyed reference maps.  General half: for any successful
flatten, two distinct heap objects receive distinct indices even when their
contents are equal — the reference map is keyed by address, never by value.
Concrete half: a node holding two distinct but value-equal Variables
flattens to two `VariableDef`s with distinct indices and no `NodeRef`
(the second Variable is not confused with the first), and the fingerprint
traversal likewise emits two fresh `varF` entries with distinct indices. -/
theorem claimC5_identity_keyed :
    (∀ heap fuel r gd ri ls r1 r2 i1 i2,
      flatten heap fuel r true false none none = .ok (gd, ri, ls) →
      heap.get? r1 = heap.get? r2 → r1 ≠ r2 →
      alookup ri r1 = some i1 → alookup ri r2 = some i2 → i1 ≠ i2) ∧
    (flatten [.node 0 [(0, .ref 1), (1, .ref 2)] 0, .varObj ⟨7, 3, []⟩, .varObj ⟨7, 3, []⟩]
        2 0 true false none none
        = .ok (.nodeDef 0 0 none (.cons 0 (.variableDef 7 1 none [])
            (.cons 1 (.variableDef 7 2 none []) .nil)) 0,
            [(0, 0), (1, 1), (2, 2)], [.varState 7 3 [], .varState 7 3 []]) ∧
      refOccs (.nodeDef 0 0 none (.cons 0 (.variableDef 7 1 none [])
          (.cons 1 (.variableDef 7 2 none []) .nil)) 0) 1 = 0 ∧
      refOccs (.nodeDef 0 0 none (.cons 0 (.variableDef 7 1 none [])
          (.cons 1 (.variableDef 7 2 none []) .nil)) 0) 2 = 0 ∧
      fingerprint [.node 0 [(0, .ref 1), (1, .ref 2)] 0, .varObj ⟨7, 3, []⟩,
          .varObj ⟨7, 3, []⟩] 2 0 none none
        = .ok (.nodeF 0 0 0 [(0, .varF 1 7 1 []), (1, .varF 2 7 2 [])] 0)) := by
  constructor
  · intro heap fuel r gd ri ls r1 r2 i1 i2 h heq hne hal1 hal2
    have h0 : graphFlatten heap fuel r (some []) [] none [] false = .ok (gd, ri, ls) := by
      simpa [flatten] using h
    obtain ⟨-, hcan, -, -, -, -, -⟩ := graphFlatten_wf heap fuel r [] [] [] gd ri ls h0 rfl
    intro hii
    subst hii
    have hg1 := alookup_canonical_get hcan hal1
    have hg2 := alookup_canonical_get hcan hal2
    rw [hg1] at hg2
    injection hg2 with hg2
    injection hg2 with hg2a hg2b
    exact hne hg2a
  · exact ⟨rfl, rfl, rfl, rfl⟩

/-- C5 witness: the two value-equal Variables of the concrete scenario are
assigned the distinct indices 1 and 2. -/
theorem claimC5_identity_keyed_witness : (1 : Nat) ≠ 2 :=
  claimC5_identity_keyed.1
    [.node 0 [(0, .ref 1), (1, .ref 2)] 0, .varObj ⟨7, 3, []⟩, .varObj ⟨7, 3, []⟩] 2 0
    (.nodeDef 0 0 none (.cons 0 (.variableDef 7 1 none [])
      (.cons 1 (.variableDef 7 2 none []) .nil)) 0)
    [(0, 0), (1, 1), (2, 2)] [.varState 7 3 [], .varState 7 3 []] 1 2 1 2
    (by rfl) (by rfl) (by decide) (by rfl) (by rfl)

theorem fpView_get (heap heap2 : Heap)
    (hmap : heap.map Obj.fpView = heap2.map Obj.fpView) (c : Ref) :
    Option.map Obj.fpView (heap.get? c) = Option.map Obj.fpView (heap2.get? c) := by
  rw [← List.get?_map, ← List.get?_map, hmap]

theorem fingerprintAttrsGo_view (heap heap2 : Heap)
    (hmap : heap.map Obj.fpView = heap2.map Obj.fpView)
    (rec rec2 : Ref → RefMap → RefMap → Nat → Res (FP × RefMap × Nat))
    (hrec : ∀ c ri nri ni, rec c ri nri ni = rec2 c ri nri ni) :
    ∀ (vals : List (GKey × Val)) ri nri ni,
      fingerprintAttrsGo heap rec vals ri nri ni
        = fingerprintAttrsGo heap2 rec2 vals ri nri ni := by
  intro vals
  induction vals with
  | nil => intro ri nri ni; rfl
  | cons hd rest ih =>
    obtain ⟨k, v⟩ := hd
    intro ri nri ni
    cases v with
    | static s =>
      simp only [fingerprintAttrsGo]
      split
      · rfl
      · rw [ih ri nri ni]
    | ref c =>
      have hg := fpView_get heap heap2 hmap c
      rcases hc : heap.get? c with _ | o <;> rcases hc2 : heap2.get? c with _ | o2 <;>
        rw [hc, hc2] at hg
      · simp only [fingerprintAttrsGo, hc, hc2]
      · cases hg
      · cases hg
      · injection hg with hg
        cases o with
        | node ty a m =>
          cases o2 with
          | node ty2 a2 m2 =>
            simp only [fingerprintAttrsGo, hc, hc2, hrec c ri nri ni, ih]
          | varObj vd2 => simp [Obj.fpView] at hg
        | varObj vd =>
          cases o2 with
          | node ty2 a2 m2 => simp [Obj.fpView] at hg
          | varObj vd2 =>
            simp only [Obj.fpView, Obj.varObj.injEq, VarData.mk.injEq] at hg
            obtain ⟨hty, -, hmd⟩ := hg
            simp only [fingerprintAttrsGo, hc, hc2, hty, hmd, ih]
    
theorem graphFingerprint_view (heap heap2 : Heap)
    (hmap : heap.map Obj.fpView = heap2.map Obj.fpView) :
    ∀ fuel r ri nri ni,
      graphFingerprint heap fuel r ri nri ni = graphFingerprint heap2 fuel r ri nri ni := by
  intro fuel
  induction fuel with
  | zero => intro r ri nri ni; rfl
  | succ f ih =>
    intro r ri nri ni
    rw [graphFingerprint_succ, graphFingerprint_succ]
    have hg := fpView_get heap heap2 hmap r
    rcases hc : heap.get? r with _ | o <;> rcases hc2 : heap2.get? r with _ | o2 <;>
      rw [hc, hc2] at hg
    · simp only [fingerprintStep, hc, hc2]
    · cases hg
    · cases hg
    · injection hg with hg
      cases o with
      | node ty a m =>
        cases o2 with
        | node ty2 a2 m2 =>
          simp only [Obj.fpView, Obj.node.injEq] at hg
          obtain ⟨rfl, rfl, rfl⟩ := hg
          simp only [fingerprintStep, hc, hc2]
          rw [fingerprintAttrsGo_view heap heap2 hmap _ _ ih]
        | varObj vd2 => simp [Obj.fpView] at hg
      | varObj vd =>
        cases o2 with
        | node ty2 a2 m2 => simp [Obj.fpView] at hg
        | varObj vd2 => simp only [fingerprintStep, hc, hc2]

/-- C6: fingerprint stability.  General half: fingerprints are computed
from object identities, types, attribute shape and metadata only — two
heaps equal up to Variable values (equal `fpView` images) produce
identical fingerprints for every root and every map state.  Concrete
halves: changing only a Variable value leaves the fingerprint unchanged,
while changing a Variable's metadata, or adding an attribute, changes it. -/
theorem claimC6_fingerprint_stability :
    (∀ heap heap2 : Heap, heap.map Obj.fpView = heap2.map Obj.fpView →
      ∀ fuel r ri nri, fingerprint heap fuel r ri nri = fingerprint heap2 fuel r ri nri) ∧
    (fingerprint [.node 0 [(0, .ref 1)] 0, .varObj ⟨7, 3, [(1, 2)]⟩] 2 0 none none
      = fingerprint [.node 0 [(0, .ref 1)] 0, .varObj ⟨7, 4, [(1, 2)]⟩] 2 0 none none) ∧
    (fingerprint [.node 0 [(0, .ref 1)] 0, .varObj ⟨7, 3, [(1, 2)]⟩] 2 0 none none
      ≠ fingerprint [.node 0 [(0, .ref 1)] 0, .varObj ⟨7, 3, [(1, 5)]⟩] 2 0 none none) ∧
    (fingerprint [.node 0 [(0, .ref 1)] 0, .varObj ⟨7, 3, [(1, 2)]⟩] 2 0 none none
      ≠ fingerprint [.node 0 [(0, .ref 1), (1, .static (.intV 0))] 0,
          .varObj ⟨7, 3, [(1, 2)]⟩] 2 0 none none) := by
  refine ⟨?_, rfl, ?_, ?_⟩
  · intro heap heap2 hmap fuel r ri nri
    simp only [fingerprint]
    rw [graphFingerprint_view heap heap2 hmap]
  · intro h
    rw [show fingerprint [.node 0 [(0, .ref 1)] 0, .varObj ⟨7, 3, [(1, 2)]⟩] 2 0 none none
        = .ok (.nodeF 0 0 0 [(0, .varF 1 7 1 [(1, 2)])] 0) from rfl,
      show fingerprint [.node 0 [(0, .ref 1)] 0, .varObj ⟨7, 3, [(1, 5)]⟩] 2 0 none none
        = .ok (.nodeF 0 0 0 [(0, .varF 1 7 1 [(1, 5)])] 0) from rfl] at h
    simp at h
  · intro h
    rw [show fingerprint [.node 0 [(0, .ref 1)] 0, .varObj ⟨7, 3, [(1, 2)]⟩] 2 0 none none
        = .ok (.nodeF 0 0 0 [(0, .varF 1 7 1 [(1, 2)])] 0) from rfl,
      show fingerprint [.node 0 [(0, .ref 1), (1, .static (.intV 0))] 0,
            .varObj ⟨7, 3, [(1, 2)]⟩] 2 0 none none
        = .ok (.nodeF 0 0 0 [(0, .varF 1 7 1 [(1, 2)]), (1, .staticF (.intV 0))] 0)
        from rfl] at h
    simp at h

/-- C6 witness: the general value-insensitivity applied to the concrete
value-changed pair. -/
theorem claimC6_fingerprint_stability_witness :
    fingerprint [.node 0 [(0, .ref 1)] 0, .varObj ⟨7, 3, [(1, 2)]⟩] 9 0 none none
      = fingerprint [.node 0 [(0, .ref 1)] 0, .varObj ⟨7, 8, [(1, 2)]⟩] 9 0 none none :=
  claimC6_fingerprint_stability.1
    [.node 0 [(0, .ref 1)] 0, .varObj ⟨7, 3, [(1, 2)]⟩]
    [.node 0 [(0, .ref 1)] 0, .varObj ⟨7, 8, [(1, 2)]⟩]
    (by rfl) 9 0 none none

end Flax
